import Mathlib

/-!
Verification of the duvet region-consolidation engine.

The definitions below are a shallow embedding of the Rust sources:

* `src/duvet/src/citation/rangemap.rs` — `RangeMap` (a `BTreeMap<(Offset, Id), bool>`
  with the cancel/collapse insertion rule), the sweep iterator `Iter::next` with its
  look-ahead `next_if` closure, and the reference-count `Stack`.
* `src/duvet/src/marker.rs` — `Markers::mark`, `Markers::for_each`, the `Finisher`
  (max-end per-label sweep) and `Markers::merge_entry`.
* `src/duvet/src/region.rs` — `Regions::insert`, `Regions::finish_file`,
  `Regions::merge_entry`.
* `src/duvet/src/notification.rs` — `Notifications::finish_file`.

Offsets, label ids, file ids are `u32` in the source; all arithmetic performed on
them is comparison, `max`, `+1`/`-1` with removal at zero, so they are modelled as
`Nat`.  A `BTreeMap` (and a `sled::Tree`, which is also an ordered map) is
modelled as a strictly sorted association list in ascending key order, which is
the order its iterators yield entries in.  One fixed scope (file id, and instance
id where present) is considered throughout, as every operation of the engine is
per-scope.
-/

/-! ## Definitions: `RangeMap` and its sweep (`src/duvet/src/citation/rangemap.rs`) -/

/-- Keys of the `RangeMap` `BTreeMap`: `(offset, id)`, ordered lexicographically
(the derived `Ord` on Rust tuples). -/
abbrev RKey := Nat × Nat

/-- Lexicographic strict order on `(offset, id)` keys. -/
def keyLt (a b : RKey) : Prop := a.1 < b.1 ∨ (a.1 = b.1 ∧ a.2 < b.2)

instance (a b : RKey) : Decidable (keyLt a b) := by
  unfold keyLt; exact inferInstance

/-- An entry of the `RangeMap`: key plus the stored polarity
(`true` = range opens at this offset, `false` = range closes). -/
abbrev REntry := RKey × Bool

/-- The `RangeMap` itself: the `BTreeMap<(Offset, Id), bool>` in ascending key
order. -/
abbrev RMap := List REntry

/-- Key-strict-sortedness invariant of the association list modelling the
`BTreeMap`. -/
def RMap.SortedM (m : RMap) : Prop := m.Pairwise (fun a b => keyLt a.1 b.1)

/-- `BTreeMap` lookup (first, and under `SortedM` only, entry with the key). -/
def RMap.lookupB : RMap → RKey → Option Bool
  | [], _ => none
  | (k', v') :: t, k => if k' = k then some v' else RMap.lookupB t k

/-- `RangeMap::insert_point`: on an occupied key, an equal value is kept (the two
contributions collapse into one) and a differing value removes the entry (the two
contributions cancel); on a vacant key the value is stored. -/
def insertPoint : RMap → RKey → Bool → RMap
  | [], k, v => [(k, v)]
  | (k', v') :: t, k, v =>
    if keyLt k k' then (k, v) :: (k', v') :: t
    else if k = k' then (if v' = v then (k', v') :: t else t)
    else (k', v') :: insertPoint t k v

/-- `RangeMap::insert`: empty ranges are dropped, otherwise an opening point is
recorded at `range.start` and a closing point at `range.end`. -/
def rmInsert (m : RMap) (range : Nat × Nat) (id : Nat) : RMap :=
  if range.1 ≥ range.2 then m
  else insertPoint (insertPoint m (range.1, id) true) (range.2, id) false

/-- A mark: `(range, id)` as passed to `RangeMap::insert`. -/
abbrev Mark := (Nat × Nat) × Nat

/-- Insert a list of marks, in list order, into an empty `RangeMap`. -/
def buildMap (marks : List Mark) : RMap :=
  marks.foldl (fun m mk => rmInsert m mk.1 mk.2) []

/-- The sweep `Stack`: `BTreeMap<Id, u32>` of reference counts, ascending by id.
Counts stored are always positive (an entry hitting zero is removed). -/
abbrev RStack := List (Nat × Nat)

/-- `Stack::insert`: increment (inserting `1` on a vacant key) on an opening
event; decrement, removing at zero, on a closing event.  A closing event on a
vacant key is the debug-asserted "invalid stack state" and leaves the stack
unchanged. -/
def stackInsert : RStack → Nat → Bool → RStack
  | [], id, en => if en then [(id, 1)] else []
  | (i, c) :: t, id, en =>
    if id < i then (if en then (id, 1) :: (i, c) :: t else (i, c) :: t)
    else if id = i then
      (if en then (i, c + 1) :: t else if c = 1 then t else (i, c - 1) :: t)
    else (i, c) :: stackInsert t id en

/-- `Stack::maybe_insert`: apply the event and return `true` only when it does not
change whether its id is present; return `false` (stack untouched) when applying
it would add (`enabled` on a vacant key) or remove (`disabled` on a count of 1) an
entry.  `disabled` on a vacant key is the debug-asserted branch returning `true`
without touching the stack. -/
def stackMaybe : RStack → Nat → Bool → RStack × Bool
  | [], _, en => ([], if en then false else true)
  | (i, c) :: t, id, en =>
    if id < i then ((i, c) :: t, if en then false else true)
    else if id = i then
      (if en then ((i, c + 1) :: t, true)
       else if c = 1 then ((i, c) :: t, false) else ((i, c - 1) :: t, true))
    else
      let r := stackMaybe t id en
      ((i, c) :: r.1, r.2)

/-- `Stack::ids`: the keys, in ascending order. -/
def stackIds (s : RStack) : List Nat := s.map Prod.fst

/-- `Stack::is_empty`. -/
def stackIsEmpty (s : RStack) : Bool := s.isEmpty

/-- One consolidated output entry of the sweep: `(start, end, sorted ids)`. -/
abbrev SEntry := Nat × Nat × List Nat

/-- The `next_if` look-ahead loop of `Iter::next`.  `offset` is the offset of the
event that started the segment, the second `Nat` argument the running exclusive
end (mutated by the closure on every peeked event, even one that is not
consumed).  An event at the segment's own offset is always consumed and applied
with `Stack::insert`; a later event is consumed exactly when
`Stack::maybe_insert` answers `true`.  Returns the final end, the stack, and the
unconsumed remainder. -/
def lookahead (offset : Nat) : RStack → Nat → List REntry → Nat × RStack × List REntry
  | st, e, [] => (e, st, [])
  | st, _, ((o2, id), en) :: rest =>
    if o2 = offset then lookahead offset (stackInsert st id en) o2 rest
    else
      match stackMaybe st id en with
      | (st', true) => lookahead offset st' o2 rest
      | (_, false) => (o2, st, ((o2, id), en) :: rest)

theorem lookahead_length_le (offset : Nat) (st : RStack) (e : Nat) (l : List REntry) :
    (lookahead offset st e l).2.2.length ≤ l.length := by
  induction l generalizing st e with
  | nil => simp [lookahead]
  | cons hd tl ih =>
    rcases hd with ⟨⟨o2, id⟩, en⟩
    simp only [lookahead]
    split
    · exact le_trans (ih _ _) (Nat.le_succ _)
    · split
      · exact le_trans (ih _ _) (Nat.le_succ _)
      · simp

/-- The full run of `Iter::next` until exhaustion: each outer loop iteration
unconditionally applies the next event with `Stack::insert`, runs the look-ahead,
skips the segment when the stack came out empty, and otherwise emits
`(offset, end, stack ids)`.  Returns the emitted entries together with the final
stack. -/
def sweepAux : List REntry → RStack → List SEntry × RStack
  | [], st => ([], st)
  | ((o, id), en) :: rest, st =>
    let st1 := stackInsert st id en
    let r := lookahead o st1 o rest
    let res := sweepAux r.2.2 r.2.1
    if stackIsEmpty r.2.1 then res
    else ((o, r.1, stackIds r.2.1) :: res.1, res.2)
termination_by evs _ => evs.length
decreasing_by
  exact Nat.lt_succ_of_le (lookahead_length_le _ _ _ _)

/-- The consolidated partition emitted for a list of marks inserted, in list
order, into an empty scope. -/
def sweepOut (marks : List Mark) : List SEntry :=
  (sweepAux (buildMap marks) []).1

/-- The active map (`Stack`) left when the sweep iterator over the marks'
`RangeMap` is exhausted. -/
def sweepFinalStack (marks : List Mark) : RStack :=
  (sweepAux (buildMap marks) []).2

/-- Coverage of a position by the input marks. -/
def coveredIn (marks : List Mark) (x : Nat) : Prop :=
  ∃ mk ∈ marks, mk.1.1 ≤ x ∧ x < mk.1.2

/-- Coverage of a position by the emitted partition entries. -/
def coveredOut (entries : List SEntry) (x : Nat) : Prop :=
  ∃ e ∈ entries, e.1 ≤ x ∧ x < e.2.1

instance (marks : List Mark) (x : Nat) : Decidable (coveredIn marks x) := by
  unfold coveredIn; exact inferInstance

instance (entries : List SEntry) (x : Nat) : Decidable (coveredOut entries x) := by
  unfold coveredOut; exact inferInstance

/-- The two boundary contributions of a mark (none for an empty range): an
opening one at `(start, id)` and a closing one at `(end, id)`, both recording the
polarity that `RangeMap::insert` would store. -/
def contrib (mk : Mark) : List REntry :=
  if mk.1.1 < mk.1.2 then [((mk.1.1, mk.2), true), ((mk.1.2, mk.2), false)] else []

/-- All boundary contributions of a list of marks, in insertion order. -/
def contributions (marks : List Mark) : List REntry :=
  (marks.map contrib).flatten

/-- No two boundary contributions of the marks land on the same `(offset, label)`
point — the coincidence-free condition of spec §4.2. -/
def noCoincidence (marks : List Mark) : Prop :=
  ((contributions marks).map Prod.fst).Nodup

instance (marks : List Mark) : Decidable (noCoincidence marks) := by
  unfold noCoincidence; exact inferInstance

/-- One `insert_point` state transition of the value stored at a fixed key:
a vacant key stores the polarity, an equal polarity collapses, an opposite
polarity cancels. -/
def cancelStep (o : Option Bool) (v : Bool) : Option Bool :=
  match o with
  | none => some v
  | some w => if w = v then some v else none

/-- The polarities contributed at one key, in insertion order. -/
def contribVals (marks : List Mark) (k : RKey) : List Bool :=
  (contributions marks).filterMap (fun c => if c.1 = k then some c.2 else none)

/-- The maximality relation between adjacent output entries: when the first
entry's end is the second's start, their label sets must differ. -/
def touchOk (a b : SEntry) : Prop := a.2.1 = b.1 → a.2.2 ≠ b.2.2

instance (a b : SEntry) : Decidable (touchOk a b) :=
  inferInstanceAs (Decidable (a.2.1 = b.1 → a.2.2 ≠ b.2.2))

/-- Events of the map with offset at most `x`. -/
def filterLE (evs : List REntry) (x : Nat) : List REntry :=
  evs.filter (fun ev => ev.1.1 ≤ x)

/-- Replay a list of events into a stack with `Stack::insert`, starting empty. -/
def foldSt (p : List REntry) : RStack :=
  p.foldl (fun s ev => stackInsert s ev.1.2 ev.2) []

/-- Association-list lookup on `Nat` keys (used for the sweep stack and for the
`Finisher`'s per-label state). -/
def lookupN : List (Nat × Nat) → Nat → Option Nat
  | [], _ => none
  | (i, v) :: t, id => if i = id then some v else lookupN t id

/-- The reference count a stack holds for an id (0 when absent). -/
def lookupCount (s : RStack) (id : Nat) : Nat :=
  match lookupN s id with
  | some c => c
  | none => 0

/-- Per-id replay of the event polarities: `+1` on open, truncated `-1` on close
(matching `Stack::insert`'s no-op on a close of an absent id). -/
def evStep (id : Nat) (c : Nat) (ev : REntry) : Nat :=
  if ev.1.2 = id then (if ev.2 then c + 1 else c - 1) else c

/-- The count the stack replay assigns to an id after a list of events. -/
def cnt (p : List REntry) (id : Nat) : Nat := p.foldl (evStep id) 0

/-- Well-formedness of a sweep stack: strictly ascending ids, positive counts. -/
def StackWF (s : RStack) : Prop :=
  s.Pairwise (fun a b => a.1 < b.1) ∧ ∀ p ∈ s, 0 < p.2

/-! ## Definitions: persisted mark store (`src/duvet/src/marker.rs`,
`src/duvet/src/region.rs`, `src/duvet/src/notification.rs`)

A `sled::Tree` with the byte-concatenation merge operator, restricted to one
scope, is modelled as a strictly sorted association list from offset to the list
of `Marker { id, end }` records accumulated at that offset in arrival order. -/

/-- A persisted `Marker` record: `(id, end)`. -/
abbrev MRec := Nat × Nat

/-- One scope of the marker tree: ascending offsets, each holding its merged
records in arrival order. -/
abbrev MStore := List (Nat × List MRec)

/-- `Tree::merge` under the byte-concatenation merge operator: append the record
to the value at the key, creating the key if absent. -/
def markMerge : MStore → Nat → MRec → MStore
  | [], off, r => [(off, [r])]
  | (o, rs) :: t, off, r =>
    if off < o then (off, [r]) :: (o, rs) :: t
    else if off = o then (o, rs ++ [r]) :: t
    else (o, rs) :: markMerge t off r

/-- `Markers::mark` (and identically `Regions::insert`): an empty range is
dropped with `Ok(())`; otherwise the `(id, end)` record is merged at
`range.start` and at `range.end`.  The `Result` is modelled by `Except`; the
underlying merge never fails in the pure model. -/
def markersMark (st : MStore) (bytes : Nat × Nat) (id : Nat) : Except Unit MStore :=
  if bytes.1 ≥ bytes.2 then Except.ok st
  else Except.ok (markMerge (markMerge st bytes.1 (id, bytes.2)) bytes.2 (id, bytes.2))

/-- `Markers::merge_entry`: start from the old value (or an empty buffer) and
append the newly merged bytes. -/
def Markers.mergeEntry (_key : List Nat) (oldValue : Option (List Nat))
    (mergedBytes : List Nat) : Option (List Nat) :=
  let value := match oldValue with
    | some v => v
    | none => []
  some (value ++ mergedBytes)

/-- `Regions::merge_entry`: textually the same combine function as
`Markers::merge_entry`. -/
def Regions.mergeEntry (_key : List Nat) (oldValue : Option (List Nat))
    (mergedBytes : List Nat) : Option (List Nat) :=
  let value := match oldValue with
    | some v => v
    | none => []
  some (value ++ mergedBytes)

/-- The `HashMap::entry(id).and_modify(max).or_insert(end)` update of the
finisher's per-label state (the `HashMap` is modelled as an association list kept
in ascending id order; the iteration order of the real `HashMap` is only ever
observed through a subsequent sort). -/
def curInsertMax : List (Nat × Nat) → Nat → Nat → List (Nat × Nat)
  | [], id, e => [(id, e)]
  | (i, pe) :: t, id, e =>
    if id < i then (id, e) :: (i, pe) :: t
    else if id = i then (i, Nat.max pe e) :: t
    else (i, pe) :: curInsertMax t id e

/-- Sorted insertion used to model the slice `sort()` on the id buffer. -/
def insId (x : Nat) : List Nat → List Nat
  | [] => [x]
  | y :: t => if x ≤ y then x :: y :: t else y :: insId x t

/-- The slice `sort()` call on the id buffer. -/
def sortIds (l : List Nat) : List Nat := l.foldr insId []

/-- The ends a record batch carries for a given id, in order. -/
def markerEnds (markers : List MRec) (id : Nat) : List Nat :=
  markers.filterMap (fun m => if m.1 = id then some m.2 else none)

/-- Fold `Nat.max` over newly read ends, starting from the previously recorded
end when there is one. -/
def foldMax (o : Option Nat) (es : List Nat) : Option Nat :=
  es.foldl (fun a e =>
    match a with
    | none => some e
    | some b => some (Nat.max b e)) o

/-- The state of `marker.rs`'s `Finisher`. -/
structure FinSt where
  current : List (Nat × Nat)
  valueBuf : List Nat
  prevOffset : Nat
  acc : List SEntry
deriving DecidableEq

/-- `Finisher::flush`: record the new previous offset; when the id buffer is
non-empty, sort it and emit the entry `[prev_offset, offset)` carrying it. -/
def finFlush (st : FinSt) (offset : Nat) : FinSt :=
  if st.valueBuf = [] then { st with prevOffset := offset }
  else
    { st with
      prevOffset := offset
      valueBuf := []
      acc := st.acc ++ [(st.prevOffset, offset, sortIds st.valueBuf)] }

/-- `Finisher::on_markers`: flush the previous segment, merge every record's end
into the per-label state taking maxima, then retain only the labels whose end
exceeds this offset, appending the retained ids to the value buffer. -/
def finOnMarkers (st : FinSt) (offset : Nat) (markers : List MRec) : FinSt :=
  let st1 := finFlush st offset
  let current1 := markers.foldl (fun cur m => curInsertMax cur m.1 m.2) st1.current
  let kept := current1.filter (fun p => offset < p.2)
  { st1 with current := kept, valueBuf := st1.valueBuf ++ kept.map Prod.fst }

/-- The initial `Finisher` state. -/
def finInit : FinSt := ⟨[], [], 0, []⟩

/-- `Markers::for_each`: drive the finisher over the scope's records in ascending
offset order, then flush at the last seen offset (0 when the scope is empty). -/
def markersForEach (st : MStore) : List SEntry :=
  let fin := st.foldl (fun f p => finOnMarkers f p.1 p.2) finInit
  let endOffset := st.foldl (fun _ p => p.1) 0
  (finFlush fin endOffset).acc

/-! ## Definitions: overwrite stores and the finalize passes -/

section OvStore

variable {κ V : Type} [DecidableEq κ] [DecidableEq V]
variable (lt : κ → κ → Prop) [DecidableRel lt]

/-- `Tree::insert` (plain overwrite) into an ordered map modelled as a sorted
association list. -/
def insertOv : List (κ × V) → κ → V → List (κ × V)
  | [], k, v => [(k, v)]
  | (k', v') :: t, k, v =>
    if lt k k' then (k, v) :: (k', v') :: t
    else if k = k' then (k, v) :: t
    else (k', v') :: insertOv t k v

/-- Association-list lookup. -/
def lookupOv : List (κ × V) → κ → Option V
  | [], _ => none
  | (k', v') :: t, k => if k' = k then some v' else lookupOv t k

/-- Strict sortedness of an overwrite store. -/
def SortedOv (r : List (κ × V)) : Prop := r.Pairwise (fun a b => lt a.1 b.1)

/-- Apply a list of key/value writes with plain overwrite-inserts. -/
def applyOv (r : List (κ × V)) (w : List (κ × V)) : List (κ × V) :=
  w.foldl (fun r kv => insertOv lt r kv.1 kv.2) r

/-- The value a write list leaves for a key, starting from a default. -/
def wLookup (w : List (κ × V)) (o : Option V) (k : κ) : Option V :=
  w.foldl (fun acc kv => if kv.1 = k then some kv.2 else acc) o

end OvStore

/-- The per-offset state of `Regions::finish_file`: the per-label max-end map,
the writes issued to the `entity_regions` tree and those issued to the `regions`
tree, in issue order. -/
structure RegSt where
  current : List (Nat × Nat)
  accER : List ((Nat × Nat) × List Nat)
  accR : List (Nat × List Nat)
deriving DecidableEq

/-- One iteration of the `Regions::finish_file` loop at a marker key: merge the
batch's ends (taking maxima), write an empty `entity_regions` record for every
label ending at this offset, and for the retained labels write the sorted id
buffer to `entity_regions` (per label) and to `regions` (at the offset). -/
def regStep (s : RegSt) (offset : Nat) (entities : List MRec) : RegSt :=
  let current1 := entities.foldl (fun cur m => curInsertMax cur m.1 m.2) s.current
  let dropped := current1.filter (fun p => p.2 ≤ offset)
  let kept := current1.filter (fun p => offset < p.2)
  let buf := sortIds (kept.map Prod.fst)
  { current := kept
    accER := s.accER ++ dropped.map (fun p => ((p.1, offset), ([] : List Nat)))
      ++ kept.map (fun p => ((p.1, offset), buf))
    accR := s.accR ++ [(offset, buf)] }

/-- `Regions::finish_file` as the writes it issues against the `entity_regions`
and `regions` trees, reading only the scope's marker records. -/
def regionsFinishFile (st : MStore) : List ((Nat × Nat) × List Nat) × List (Nat × List Nat) :=
  let final := st.foldl (fun s p => regStep s p.1 p.2) ⟨[], [], []⟩
  (final.accER, final.accR)

/-- A scope's slice of the `region.rs` database: marker records plus the two
overwrite trees `finish_file` writes into. -/
abbrev RegDb := MStore × List ((Nat × Nat) × List Nat) × List (Nat × List Nat)

/-- One `Regions::finish_file` pass: the markers are only read; the computed
records overwrite into `entity_regions` (keyed by `(entity, offset)`) and
`regions` (keyed by offset). -/
def regFinalize (db : RegDb) : RegDb :=
  let w := regionsFinishFile db.1
  (db.1, applyOv keyLt db.2.1 w.1, applyOv (fun a b : Nat => a < b) db.2.2 w.2)

/-- The records `Notifications::finish_file` inserts into its regions tree: one
per entry emitted by `Markers::for_each`, keyed `(start, end)` with the entry's
id buffer as value. -/
def notifWrites (st : MStore) : List ((Nat × Nat) × List Nat) :=
  (markersForEach st).map (fun e => ((e.1, e.2.1), e.2.2))

/-- A scope's slice of the notification database: marker records plus the
overwrite tree `finish_file` writes into. -/
abbrev NotifDb := MStore × List ((Nat × Nat) × List Nat)

/-- One `Notifications::finish_file` pass. -/
def notifFinalize (db : NotifDb) : NotifDb :=
  (db.1, applyOv keyLt db.2 (notifWrites db.1))

/-- One step of the per-id polarity replay: `+1` on an open, truncated `-1` on a
close. -/
def bstep (c : Nat) (b : Bool) : Nat := if b then c + 1 else c - 1

/-- Replay a list of polarities from a starting count. -/
def bcnt (c : Nat) (bl : List Bool) : Nat := bl.foldl bstep c

/-- The largest offset appearing in an event list (0 when empty). -/
def maxOffset (evs : List REntry) : Nat :=
  (evs.map (fun ev => ev.1.1)).foldr Nat.max 0

/-! ## Basic order lemmas -/

theorem keyLt_irrefl (a : RKey) : ¬ keyLt a a := by
  simp [keyLt]

theorem keyLt_trans {a b c : RKey} : keyLt a b → keyLt b c → keyLt a c := by
  rcases a with ⟨a1, a2⟩; rcases b with ⟨b1, b2⟩; rcases c with ⟨c1, c2⟩
  simp only [keyLt]; omega

theorem keyLt_asymm {a b : RKey} : keyLt a b → ¬ keyLt b a := by
  rcases a with ⟨a1, a2⟩; rcases b with ⟨b1, b2⟩
  simp only [keyLt]; omega

theorem keyLt_total (a b : RKey) : keyLt a b ∨ a = b ∨ keyLt b a := by
  rcases a with ⟨a1, a2⟩; rcases b with ⟨b1, b2⟩
  simp only [keyLt, Prod.mk.injEq]; omega

theorem sweepAux_nil (st : RStack) : sweepAux [] st = ([], st) := by
  simp [sweepAux.eq_def]

theorem sweepAux_cons (o id : Nat) (en : Bool) (rest : List REntry) (st : RStack) :
    sweepAux (((o, id), en) :: rest) st =
      (let st1 := stackInsert st id en
       let r := lookahead o st1 o rest
       let res := sweepAux r.2.2 r.2.1
       if stackIsEmpty r.2.1 then res
       else ((o, r.1, stackIds r.2.1) :: res.1, res.2)) := by
  rw [sweepAux.eq_def]

theorem perm_pair_cases {α : Type} {a b x y : α} (h : [a, b].Perm [x, y]) :
    (a = x ∧ b = y) ∨ (a = y ∧ b = x) := by
  have ha : a ∈ [x, y] := h.mem_iff.mp (by simp)
  rcases List.mem_pair.mp ha with rfl | rfl
  · left
    refine ⟨rfl, ?_⟩
    have := h.cons_inv
    simpa [List.perm_singleton] using this
  · right
    refine ⟨rfl, ?_⟩
    have h2 : [a, b].Perm [a, x] := h.trans (List.Perm.swap a x [])
    have := h2.cons_inv
    simpa [List.perm_singleton] using this

/-! ## Claim theorems: concrete scenarios -/

/-- C1: inserting the marks `(0..10, L0)` and `(4..5, L1)` into an empty scope in
either order, the sweep emits exactly `(0..4, {L0})`, `(4..5, {L0, L1})`,
`(5..10, {L0})`, in that order. -/
theorem C1_nested_two_labels (l : List Mark)
    (h : l.Perm [((0, 10), 0), ((4, 5), 1)]) :
    sweepOut l = [(0, 4, [0]), (4, 5, [0, 1]), (5, 10, [0])] := by
  have hlen : l.length = 2 := h.length_eq
  obtain ⟨a, b, rfl⟩ : ∃ a b, l = [a, b] := by
    match l, hlen with
    | [a, b], _ => exact ⟨a, b, rfl⟩
  rcases perm_pair_cases h with ⟨h1, h2⟩ | ⟨h1, h2⟩ <;> subst h1 <;> subst h2 <;>
    simp +decide [sweepOut, sweepAux.eq_def, buildMap, rmInsert, insertPoint, keyLt,
      lookahead, stackInsert, stackMaybe, stackIds, stackIsEmpty]

/-- C1 witness: the property of `C1_nested_two_labels` holds at the order
`[(0..10, L0), (4..5, L1)]` itself. -/
theorem C1_nested_two_labels_witness :
    sweepOut [((0, 10), 0), ((4, 5), 1)] = [(0, 4, [0]), (4, 5, [0, 1]), (5, 10, [0])] :=
  C1_nested_two_labels _ (List.Perm.refl _)

/-- C4: inserting the touching same-label marks `(0..4, L0)` and `(4..10, L0)` in
either order, the opposite-polarity contributions at offset 4 cancel (no entry is
stored at key `(4, L0)`) and the sweep emits the single entry `(0..10, {L0})`. -/
theorem C4_touching_cancel (l : List Mark)
    (h : l.Perm [((0, 4), 0), ((4, 10), 0)]) :
    sweepOut l = [(0, 10, [0])] ∧ RMap.lookupB (buildMap l) (4, 0) = none := by
  have hlen : l.length = 2 := h.length_eq
  obtain ⟨a, b, rfl⟩ : ∃ a b, l = [a, b] := by
    match l, hlen with
    | [a, b], _ => exact ⟨a, b, rfl⟩
  rcases perm_pair_cases h with ⟨h1, h2⟩ | ⟨h1, h2⟩ <;> subst h1 <;> subst h2 <;>
    constructor <;>
    simp +decide [sweepOut, sweepAux.eq_def, buildMap, rmInsert, insertPoint, keyLt,
      lookahead, stackInsert, stackMaybe, stackIds, stackIsEmpty, RMap.lookupB]

/-- C4 witness: the property of `C4_touching_cancel` at the order
`[(0..4, L0), (4..10, L0)]` itself. -/
theorem C4_touching_cancel_witness :
    sweepOut [((0, 4), 0), ((4, 10), 0)] = [(0, 10, [0])] ∧
      RMap.lookupB (buildMap [((0, 4), 0), ((4, 10), 0)]) (4, 0) = none :=
  C4_touching_cancel _ (List.Perm.refl _)

/-- C5 (failing input): for the marks `(0..5, L0)` and `(2..5, L0)` — whose two
closing contributions at key `(5, L0)` collapse into a single event — the sweep
consumes every event yet leaves the active map holding `L0` with count 1, so the
active map is not empty at exhaustion (the code's own debug assertion
`"invalid stack state"` fails on this input). -/
theorem C5_active_map_leak :
    sweepFinalStack [((0, 5), 0), ((2, 5), 0)] = [(0, 1)] ∧
      sweepOut [((0, 5), 0), ((2, 5), 0)] = [(0, 5, [0])] := by
  constructor <;>
    simp +decide [sweepFinalStack, sweepOut, sweepAux.eq_def, buildMap, rmInsert,
      insertPoint, keyLt, lookahead, stackInsert, stackMaybe, stackIds, stackIsEmpty]

/-- C2 (counterexample): the multiset
`{(0..4, L0), (4..10, L0), (4..12, L0)}` inserted in two different orders yields
two different consolidated partitions: inserting `(0..4)` first gives
`[(0..12, {L0})]`, while inserting it last gives `[(0..10, {L0})]` (at key
`(4, L0)` the close/open cancellation interacts with the same-polarity collapse
in an order-dependent way). -/
theorem C2_counterexample :
    ([((0, 4), 0), ((4, 10), 0), ((4, 12), 0)] : List Mark).Perm
        [((4, 10), 0), ((4, 12), 0), ((0, 4), 0)] ∧
      sweepOut [((0, 4), 0), ((4, 10), 0), ((4, 12), 0)] = [(0, 12, [0])] ∧
      sweepOut [((4, 10), 0), ((4, 12), 0), ((0, 4), 0)] = [(0, 10, [0])] := by
  refine ⟨?_, ?_, ?_⟩
  · exact (List.Perm.swap _ _ _).trans (List.Perm.cons _ (List.Perm.swap _ _ []))
  · simp +decide [sweepOut, sweepAux.eq_def, buildMap, rmInsert, insertPoint, keyLt,
      lookahead, stackInsert, stackMaybe, stackIds, stackIsEmpty]
  · simp +decide [sweepOut, sweepAux.eq_def, buildMap, rmInsert, insertPoint, keyLt,
      lookahead, stackInsert, stackMaybe, stackIds, stackIsEmpty]

/-- C6 (counterexample): for the insertion order
`[(4..10, L0), (4..12, L0), (0..4, L0)]` the input marks cover offset 11 (the
mark `(4..12, L0)` does) but the emitted partition, which is `[(0..10, {L0})]`,
does not: the union of output ranges is strictly smaller than the union of input
ranges. -/
theorem C6_counterexample :
    coveredIn [((4, 10), 0), ((4, 12), 0), ((0, 4), 0)] 11 ∧
      ¬ coveredOut (sweepOut [((4, 10), 0), ((4, 12), 0), ((0, 4), 0)]) 11 := by
  have hout : sweepOut [((4, 10), 0), ((4, 12), 0), ((0, 4), 0)] = [(0, 10, [0])] := by
    simp +decide [sweepOut, sweepAux.eq_def, buildMap, rmInsert, insertPoint, keyLt,
      lookahead, stackInsert, stackMaybe, stackIds, stackIsEmpty]
  rw [hout]
  constructor
  · decide
  · decide

/-! ## Claim theorems: mark store -/

/-- C8: for any store, any scope map, label and range with `start >= end`,
`Markers::mark` returns `Ok(())` leaving the store untouched, and
`RangeMap::insert` likewise leaves the map untouched; and in the pure model
(where the underlying storage cannot fail) `mark` always returns `Ok`. -/
theorem C8_empty_range_noop (st : MStore) (m : RMap) (r : Nat × Nat) (id : Nat) :
    (r.1 ≥ r.2 → markersMark st r id = Except.ok st ∧ rmInsert m r id = m) ∧
      ∃ st', markersMark st r id = Except.ok st' := by
  constructor
  · intro h
    constructor
    · simp [markersMark, h]
    · simp [rmInsert, h]
  · unfold markersMark
    split
    · exact ⟨st, rfl⟩
    · exact ⟨_, rfl⟩

/-- C8 witness: at the concrete empty store, empty map, range `5..3` and
label `7`. -/
theorem C8_empty_range_noop_witness :
    (((5, 3) : Nat × Nat).1 ≥ ((5, 3) : Nat × Nat).2 →
        markersMark [] (5, 3) 7 = Except.ok [] ∧ rmInsert [] (5, 3) 7 = []) ∧
      ∃ st', markersMark [] (5, 3) 7 = Except.ok st' :=
  C8_empty_range_noop [] [] (5, 3) 7

/-! ## The finisher's max-end per-label state (C10) -/

/-- Strict sortedness by id of a `Nat × Nat` association list. -/
def SortedIds (l : List (Nat × Nat)) : Prop := l.Pairwise (fun a b => a.1 < b.1)

theorem lookupN_eq_none_of_forall_lt (cur : List (Nat × Nat)) (k : Nat)
    (h : ∀ p ∈ cur, k < p.1) : lookupN cur k = none := by
  induction cur with
  | nil => rfl
  | cons a t ih =>
    rcases a with ⟨i, v⟩
    have hk : k < i := h (i, v) (by simp)
    simp only [lookupN]
    rw [if_neg (by omega)]
    exact ih (fun p hp => h p (List.mem_cons_of_mem _ hp))

theorem curInsertMax_key_mem (cur : List (Nat × Nat)) (i e : Nat) :
    ∀ b ∈ curInsertMax cur i e, b.1 = i ∨ b.1 ∈ cur.map Prod.fst := by
  induction cur with
  | nil =>
    intro b hb
    simp only [curInsertMax, List.mem_singleton] at hb
    subst hb
    simp
  | cons a t ih =>
    rcases a with ⟨j, pe⟩
    intro b hb
    simp only [curInsertMax] at hb
    split at hb
    · rcases List.mem_cons.mp hb with rfl | hb'
      · left; rfl
      · rcases List.mem_cons.mp hb' with rfl | hb''
        · right; simp
        · right
          simp only [List.map_cons, List.mem_cons]
          exact Or.inr (List.mem_map_of_mem _ hb'')
    · split at hb
      · rcases List.mem_cons.mp hb with rfl | hb'
        · left; simpa using ‹i = j›.symm
        · right
          simp only [List.map_cons, List.mem_cons]
          exact Or.inr (List.mem_map_of_mem _ hb')
      · rcases List.mem_cons.mp hb with rfl | hb'
        · right; simp
        · rcases ih b hb' with h | h
          · left; exact h
          · right
            simp only [List.map_cons, List.mem_cons]
            exact Or.inr h

theorem curInsertMax_sorted (cur : List (Nat × Nat)) (i e : Nat)
    (hs : SortedIds cur) : SortedIds (curInsertMax cur i e) := by
  induction cur with
  | nil => simp [curInsertMax, SortedIds]
  | cons a t ih =>
    rcases a with ⟨j, pe⟩
    obtain ⟨hhead, htail⟩ := List.pairwise_cons.mp hs
    simp only [curInsertMax]
    split
    · refine List.pairwise_cons.mpr ⟨?_, hs⟩
      intro b hb
      rcases List.mem_cons.mp hb with rfl | hb'
      · simpa using ‹i < j›
      · exact lt_trans ‹i < j› (hhead b hb')
    · split
      · exact List.pairwise_cons.mpr ⟨hhead, htail⟩
      · refine List.pairwise_cons.mpr ⟨?_, ih htail⟩
        intro b hb
        rcases curInsertMax_key_mem t i e b hb with h | h
        · rw [h]; omega
        · obtain ⟨p, hp, hbp⟩ := List.mem_map.mp h
          rw [← hbp]
          exact hhead p hp

theorem lookupN_curInsertMax (cur : List (Nat × Nat)) (i e id : Nat)
    (hs : SortedIds cur) :
    lookupN (curInsertMax cur i e) id =
      if i = id then
        (match lookupN cur id with
         | none => some e
         | some b => some (Nat.max b e))
      else lookupN cur id := by
  induction cur with
  | nil =>
    simp [curInsertMax, lookupN]
  | cons a t ih =>
    rcases a with ⟨j, pe⟩
    obtain ⟨hhead, htail⟩ := List.pairwise_cons.mp hs
    simp only [curInsertMax]
    split
    · -- i < j: inserted in front; `id = i` cannot also occur further down
      simp only [lookupN]
      by_cases hid : i = id
      · subst hid
        rw [if_pos rfl, if_pos rfl, if_neg (by omega)]
        rw [lookupN_eq_none_of_forall_lt t i
          (fun p hp => lt_trans ‹i < j› (hhead p hp))]
      · rw [if_neg hid, if_neg hid]
    · split
      · -- i = j: head updated in place
        subst ‹i = j›
        simp only [lookupN]
        by_cases hid : i = id
        · simp [hid]
        · simp [hid]
      · -- j < i: recurse
        simp only [lookupN]
        by_cases hjd : j = id
        · subst hjd
          have hij : ¬ i = j := by omega
          simp [hij]
        · simp only [if_neg hjd]
          exact ih htail

theorem foldl_curInsertMax_sorted (ms : List MRec) (cur : List (Nat × Nat))
    (hs : SortedIds cur) :
    SortedIds (ms.foldl (fun c m => curInsertMax c m.1 m.2) cur) := by
  induction ms generalizing cur with
  | nil => exact hs
  | cons m tl ih => exact ih _ (curInsertMax_sorted _ _ _ hs)

theorem lookupN_foldl_curInsertMax (ms : List MRec) (cur : List (Nat × Nat))
    (id : Nat) (hs : SortedIds cur) :
    lookupN (ms.foldl (fun c m => curInsertMax c m.1 m.2) cur) id =
      foldMax (lookupN cur id) (markerEnds ms id) := by
  induction ms generalizing cur with
  | nil => rfl
  | cons m tl ih =>
    rcases m with ⟨mid, me⟩
    simp only [List.foldl_cons]
    rw [ih _ (curInsertMax_sorted _ _ _ hs)]
    rw [lookupN_curInsertMax _ _ _ _ hs]
    by_cases hid : mid = id
    · subst hid
      simp only [markerEnds, List.filterMap_cons, if_pos rfl, foldMax, List.foldl_cons]
      simp
    · simp only [markerEnds, List.filterMap_cons, if_neg hid]

theorem lookupN_filter_lt (cur : List (Nat × Nat)) (offset id : Nat)
    (hs : SortedIds cur) :
    lookupN (cur.filter (fun p => offset < p.2)) id =
      match lookupN cur id with
      | some v => if offset < v then some v else none
      | none => none := by
  induction cur with
  | nil => rfl
  | cons a t ih =>
    rcases a with ⟨j, v⟩
    obtain ⟨hhead, htail⟩ := List.pairwise_cons.mp hs
    by_cases hkeep : offset < v
    · rw [List.filter_cons_of_pos (by simpa using hkeep)]
      simp only [lookupN]
      by_cases hid : j = id
      · subst hid
        simp [hkeep]
      · rw [if_neg hid, if_neg hid]
        exact ih htail
    · rw [List.filter_cons_of_neg (by simpa using hkeep)]
      simp only [lookupN]
      by_cases hid : j = id
      · subst hid
        rw [ih htail, lookupN_eq_none_of_forall_lt t j hhead]
        simp [hkeep]
      · rw [if_neg hid]
        exact ih htail

theorem finFlush_current (st : FinSt) (offset : Nat) :
    (finFlush st offset).current = st.current := by
  unfold finFlush
  split <;> rfl

/-- C10: at each boundary offset the finisher's per-label state keeps, for every
label, the maximum of the previously recorded end and every end newly read from
the offset's records (`Option.none` when neither exists), and the label is
retained after the offset exactly when that maximum exceeds the offset — i.e. it
is dropped at the first boundary offset that is `>=` the maximum, with no
reference counting. -/
theorem C10_max_end_state (st : FinSt) (offset : Nat) (markers : List MRec)
    (id : Nat) (hs : SortedIds st.current) :
    lookupN (finOnMarkers st offset markers).current id =
      match foldMax (lookupN st.current id) (markerEnds markers id) with
      | none => none
      | some m => if offset < m then some m else none := by
  show lookupN ((markers.foldl (fun cur m => curInsertMax cur m.1 m.2)
      (finFlush st offset).current).filter (fun p => offset < p.2)) id = _
  rw [lookupN_filter_lt _ _ _
    (foldl_curInsertMax_sorted _ _ (by rw [finFlush_current]; exact hs))]
  rw [lookupN_foldl_curInsertMax _ _ _ (by rw [finFlush_current]; exact hs)]
  rw [finFlush_current]
  cases foldMax (lookupN st.current id) (markerEnds markers id) <;> rfl

/-- C10 witness: concrete per-label state `[(3, 9)]`, offset 5, records
`[(3, 7), (4, 6)]`, label 3: the state keeps `max 9 7 = 9 > 5`. -/
theorem C10_max_end_state_witness :
    lookupN (finOnMarkers ⟨[(3, 9)], [], 0, []⟩ 5 [(3, 7), (4, 6)]).current 3 =
      match foldMax (lookupN [(3, 9)] 3) (markerEnds [(3, 7), (4, 6)] 3) with
      | none => none
      | some m => if 5 < m then some m else none :=
  C10_max_end_state ⟨[(3, 9)], [], 0, []⟩ 5 [(3, 7), (4, 6)] 3 (by simp [SortedIds])


/-! ## Overwrite stores and finalize idempotence (C7) -/

section OvStoreLemmas

variable {κ V : Type} [DecidableEq κ] [DecidableEq V]
variable (lt : κ → κ → Prop) [DecidableRel lt]

theorem insertOv_mem (r : List (κ × V)) (k : κ) (v : V) :
    ∀ b ∈ insertOv lt r k v, b = (k, v) ∨ b ∈ r := by
  induction r with
  | nil =>
    intro b hb
    simp only [insertOv, List.mem_singleton] at hb
    exact Or.inl hb
  | cons a t ih =>
    rcases a with ⟨k', v'⟩
    intro b hb
    simp only [insertOv] at hb
    split at hb
    · rcases List.mem_cons.mp hb with rfl | hb'
      · exact Or.inl rfl
      · exact Or.inr hb'
    · split at hb
      · rcases List.mem_cons.mp hb with rfl | hb'
        · exact Or.inl rfl
        · exact Or.inr (List.mem_cons_of_mem _ hb')
      · rcases List.mem_cons.mp hb with rfl | hb'
        · exact Or.inr (by simp)
        · rcases ih b hb' with h | h
          · exact Or.inl h
          · exact Or.inr (List.mem_cons_of_mem _ h)

theorem insertOv_sorted
    (htrans : ∀ a b c : κ, lt a b → lt b c → lt a c)
    (htot : ∀ a b : κ, lt a b ∨ a = b ∨ lt b a)
    (r : List (κ × V)) (k : κ) (v : V)
    (hs : SortedOv lt r) : SortedOv lt (insertOv lt r k v) := by
  induction r with
  | nil => simp [insertOv, SortedOv]
  | cons a t ih =>
    rcases a with ⟨k', v'⟩
    obtain ⟨hhead, htail⟩ := List.pairwise_cons.mp hs
    simp only [insertOv]
    split
    · refine List.pairwise_cons.mpr ⟨?_, hs⟩
      intro b hb
      rcases List.mem_cons.mp hb with rfl | hb'
      · assumption
      · exact htrans _ _ _ ‹lt k k'› (hhead b hb')
    · split
      · subst ‹k = k'›
        exact List.pairwise_cons.mpr ⟨hhead, htail⟩
      · have hk'k : lt k' k := by
          rcases htot k k' with h | h | h
          · exact absurd h ‹¬ lt k k'›
          · exact absurd h ‹¬ k = k'›
          · exact h
        refine List.pairwise_cons.mpr ⟨?_, ih htail⟩
        intro b hb
        rcases insertOv_mem lt t k v b hb with rfl | h
        · exact hk'k
        · exact hhead b h

theorem lookupOv_eq_none_of_forall_ne (r : List (κ × V)) (k : κ)
    (h : ∀ p ∈ r, p.1 ≠ k) : lookupOv r k = none := by
  induction r with
  | nil => rfl
  | cons a t ih =>
    rcases a with ⟨k', v'⟩
    simp only [lookupOv]
    rw [if_neg (h (k', v') (by simp))]
    exact ih (fun p hp => h p (List.mem_cons_of_mem _ hp))

theorem lookupOv_insertOv (r : List (κ × V)) (k k' : κ) (v : V)
    (hs : SortedOv lt r) :
    lookupOv (insertOv lt r k v) k' = if k = k' then some v else lookupOv r k' := by
  induction r with
  | nil =>
    simp [insertOv, lookupOv]
  | cons a t ih =>
    rcases a with ⟨k0, v0⟩
    obtain ⟨hhead, htail⟩ := List.pairwise_cons.mp hs
    simp only [insertOv]
    split
    · simp only [lookupOv]
    · split
      · subst ‹k = k0›
        by_cases hk : k = k'
        · simp [lookupOv, hk]
        · simp [lookupOv, hk]
      · simp only [lookupOv]
        by_cases hk0 : k0 = k'
        · rw [if_pos hk0, if_neg (fun hh : k = k' => ‹¬ k = k0› (hh.trans hk0.symm)),
            if_pos hk0]
        · rw [if_neg hk0, if_neg hk0, ih htail]

theorem applyOv_sorted
    (htrans : ∀ a b c : κ, lt a b → lt b c → lt a c)
    (htot : ∀ a b : κ, lt a b ∨ a = b ∨ lt b a)
    (r w : List (κ × V)) (hs : SortedOv lt r) :
    SortedOv lt (applyOv lt r w) := by
  induction w generalizing r with
  | nil => exact hs
  | cons kv tl ih => exact ih _ (insertOv_sorted lt htrans htot _ _ _ hs)

theorem lookupOv_applyOv
    (htrans : ∀ a b c : κ, lt a b → lt b c → lt a c)
    (htot : ∀ a b : κ, lt a b ∨ a = b ∨ lt b a)
    (r w : List (κ × V)) (k : κ) (hs : SortedOv lt r) :
    lookupOv (applyOv lt r w) k = wLookup w (lookupOv r k) k := by
  induction w generalizing r with
  | nil => rfl
  | cons kv tl ih =>
    rcases kv with ⟨k0, v0⟩
    show lookupOv (applyOv lt (insertOv lt r k0 v0) tl) k = _
    rw [ih _ (insertOv_sorted lt htrans htot _ _ _ hs)]
    rw [lookupOv_insertOv lt _ _ _ _ hs]
    simp only [wLookup, List.foldl_cons]

theorem wLookup_shift (w : List (κ × V)) (o : Option V) (k : κ) :
    wLookup w o k = match wLookup w none k with
      | some v => some v
      | none => o := by
  induction w generalizing o with
  | nil => rfl
  | cons kv tl ih =>
    rcases kv with ⟨k0, v0⟩
    simp only [wLookup, List.foldl_cons]
    by_cases hk : k0 = k
    · simp only [if_pos hk]
      rw [show (List.foldl (fun acc kv => if kv.1 = k then some kv.2 else acc)
        (some v0) tl) = wLookup tl (some v0) k from rfl]
      rw [ih (some v0)]
      rcases h : (wLookup tl none k) with _ | v
      · rfl
      · rfl
    · simp only [if_neg hk]
      exact ih o

theorem wLookup_absorb (w : List (κ × V)) (o : Option V) (k : κ) :
    wLookup w (wLookup w o k) k = wLookup w o k := by
  rw [wLookup_shift w (wLookup w o k) k, wLookup_shift w o k]
  rcases h : wLookup w none k with _ | v
  · rfl
  · rfl

theorem sortedOv_ext
    (hasym : ∀ a b : κ, lt a b → ¬ lt b a)
    (htrans : ∀ a b c : κ, lt a b → lt b c → lt a c)
    (htot : ∀ a b : κ, lt a b ∨ a = b ∨ lt b a)
    (r1 : List (κ × V)) :
    ∀ r2 : List (κ × V), SortedOv lt r1 → SortedOv lt r2 →
      (∀ k, lookupOv r1 k = lookupOv r2 k) → r1 = r2 := by
  induction r1 with
  | nil =>
    intro r2 hs1 hs2 h
    cases r2 with
    | nil => rfl
    | cons b t2 =>
      exfalso
      have hb := h b.1
      rcases b with ⟨k2, v2⟩
      simp [lookupOv] at hb
  | cons a t1 ih =>
    intro r2 hs1 hs2 h
    rcases a with ⟨k1, v1⟩
    obtain ⟨hhead1, htail1⟩ := List.pairwise_cons.mp hs1
    cases r2 with
    | nil =>
      exfalso
      have h1 := h k1
      simp [lookupOv] at h1
    | cons b t2 =>
      rcases b with ⟨k2, v2⟩
      obtain ⟨hhead2, htail2⟩ := List.pairwise_cons.mp hs2
      have hirr : ∀ x : κ, ¬ lt x x := fun x hx => hasym x x hx hx
      have hkeq : k1 = k2 := by
        rcases htot k1 k2 with hlt | heq | hlt
        · exfalso
          have h1 := h k1
          simp only [lookupOv, if_pos rfl] at h1
          rw [if_neg (fun hh : k2 = k1 => hirr k1 (hh ▸ hlt))] at h1
          rw [lookupOv_eq_none_of_forall_ne t2 k1] at h1
          · exact Option.noConfusion h1
          · intro p hp hpk
            have hx := htrans k1 k2 p.1 hlt (hhead2 p hp)
            rw [hpk] at hx
            exact hirr k1 hx
        · exact heq
        · exfalso
          have h1 := h k2
          simp only [lookupOv, if_pos rfl] at h1
          rw [if_neg (fun hh : k1 = k2 => hirr k2 (hh ▸ hlt))] at h1
          rw [lookupOv_eq_none_of_forall_ne t1 k2] at h1
          · exact Option.noConfusion h1
          · intro p hp hpk
            have hx := htrans k2 k1 p.1 hlt (hhead1 p hp)
            rw [hpk] at hx
            exact hirr k2 hx
      subst hkeq
      have hveq : v1 = v2 := by
        have h1 := h k1
        simp only [lookupOv, if_pos rfl] at h1
        exact Option.some.inj h1
      subst hveq
      have htls : t1 = t2 := by
        refine ih t2 htail1 htail2 ?_
        intro k
        by_cases hk : k = k1
        · subst hk
          rw [lookupOv_eq_none_of_forall_ne t1 k
            (fun p hp hpk => hirr k (hpk ▸ hhead1 p hp))]
          rw [lookupOv_eq_none_of_forall_ne t2 k
            (fun p hp hpk => hirr k (hpk ▸ hhead2 p hp))]
        · have h1 := h k
          simp only [lookupOv] at h1
          rw [if_neg (fun hh : k1 = k => hk hh.symm),
            if_neg (fun hh : k1 = k => hk hh.symm)] at h1
          exact h1
      rw [htls]

theorem applyOv_idem
    (hasym : ∀ a b : κ, lt a b → ¬ lt b a)
    (htrans : ∀ a b c : κ, lt a b → lt b c → lt a c)
    (htot : ∀ a b : κ, lt a b ∨ a = b ∨ lt b a)
    (r w : List (κ × V)) (hs : SortedOv lt r) :
    applyOv lt (applyOv lt r w) w = applyOv lt r w := by
  have hs1 := applyOv_sorted lt htrans htot r w hs
  refine sortedOv_ext lt hasym htrans htot _ _
    (applyOv_sorted lt htrans htot _ w hs1) hs1 ?_
  intro k
  rw [lookupOv_applyOv lt htrans htot _ w k hs1,
    lookupOv_applyOv lt htrans htot r w k hs]
  exact wLookup_absorb w (lookupOv r k) k

end OvStoreLemmas


theorem natLt_asymm : ∀ a b : Nat, a < b → ¬ b < a := fun _ _ h h' => by omega

theorem natLt_trans : ∀ a b c : Nat, a < b → b < c → a < c := fun _ _ _ h h' => by omega

theorem natLt_total : ∀ a b : Nat, a < b ∨ a = b ∨ b < a := fun _ _ => by omega

/-- C7: with the mark store unchanged, running `Regions::finish_file` twice (and
likewise `Notifications::finish_file` twice) leaves exactly the state one run
produces: the second run computes the identical write list from the unchanged
markers, so every overwrite-insert rewrites the value already present. -/
theorem C7_finalize_idem (db : RegDb) (nb : NotifDb)
    (her : SortedOv keyLt db.2.1)
    (hrg : SortedOv (fun a b : Nat => a < b) db.2.2)
    (hnf : SortedOv keyLt nb.2) :
    regFinalize (regFinalize db) = regFinalize db ∧
      notifFinalize (notifFinalize nb) = notifFinalize nb := by
  constructor
  · show (db.1, applyOv keyLt (applyOv keyLt db.2.1 (regionsFinishFile db.1).1)
        (regionsFinishFile db.1).1,
      applyOv (fun a b : Nat => a < b)
        (applyOv (fun a b : Nat => a < b) db.2.2 (regionsFinishFile db.1).2)
        (regionsFinishFile db.1).2) = _
    rw [applyOv_idem keyLt (fun _ _ => keyLt_asymm) (fun _ _ _ => keyLt_trans)
      keyLt_total _ _ her]
    rw [applyOv_idem _ natLt_asymm natLt_trans natLt_total _ _ hrg]
    rfl
  · show (nb.1, applyOv keyLt (applyOv keyLt nb.2 (notifWrites nb.1))
        (notifWrites nb.1)) = _
    rw [applyOv_idem keyLt (fun _ _ => keyLt_asymm) (fun _ _ _ => keyLt_trans)
      keyLt_total _ _ hnf]
    rfl

/-- C7 witness: a concrete scope holding the single mark `(0..3, L1)` with all
three target trees empty. -/
theorem C7_finalize_idem_witness :
    regFinalize (regFinalize ([(0, [(1, 3)]), (3, [(1, 3)])], [], [])) =
        regFinalize ([(0, [(1, 3)]), (3, [(1, 3)])], [], []) ∧
      notifFinalize (notifFinalize ([(0, [(1, 3)]), (3, [(1, 3)])], [])) =
        notifFinalize ([(0, [(1, 3)]), (3, [(1, 3)])], []) :=
  C7_finalize_idem ([(0, [(1, 3)]), (3, [(1, 3)])], [], [])
    ([(0, [(1, 3)]), (3, [(1, 3)])], [])
    (List.Pairwise.nil) (List.Pairwise.nil) (List.Pairwise.nil)

/-- C9: both persisted-store merge operators are pure byte concatenation: with an
existing old value the result is `old ++ new`, without one it is `new` alone, and
the merge never returns `None`, drops, reorders or rewrites any byte. -/
theorem C9_merge_is_concat (key : List Nat) (oldValue : Option (List Nat))
    (mergedBytes : List Nat) :
    Markers.mergeEntry key oldValue mergedBytes =
        some (oldValue.getD [] ++ mergedBytes) ∧
      Regions.mergeEntry key oldValue mergedBytes =
        some (oldValue.getD [] ++ mergedBytes) := by
  cases oldValue <;> simp [Markers.mergeEntry, Regions.mergeEntry]

/-! ## The `RangeMap` as a function of the contribution multiset (C2) -/

theorem lookupB_eq_lookupOv (m : RMap) (k : RKey) : RMap.lookupB m k = lookupOv m k := by
  induction m with
  | nil => rfl
  | cons a t ih =>
    rcases a with ⟨k', v'⟩
    simp only [RMap.lookupB, lookupOv, ih]

theorem lookupB_none_of_keyLt (m : RMap) (k : RKey) (hs : RMap.SortedM m)
    (h : ∀ p ∈ m, keyLt k p.1) : RMap.lookupB m k = none := by
  rw [lookupB_eq_lookupOv]
  apply lookupOv_eq_none_of_forall_ne
  intro p hp hpk
  exact keyLt_irrefl k (hpk ▸ h p hp)

theorem insertPoint_mem (m : RMap) (k : RKey) (v : Bool) :
    ∀ b ∈ insertPoint m k v, b = (k, v) ∨ b ∈ m := by
  induction m with
  | nil =>
    intro b hb
    simp only [insertPoint, List.mem_singleton] at hb
    exact Or.inl hb
  | cons a t ih =>
    rcases a with ⟨k', v'⟩
    intro b hb
    simp only [insertPoint] at hb
    split at hb
    · rcases List.mem_cons.mp hb with rfl | hb'
      · exact Or.inl rfl
      · exact Or.inr hb'
    · split at hb
      · split at hb
        · exact Or.inr hb
        · exact Or.inr (List.mem_cons_of_mem _ hb)
      · rcases List.mem_cons.mp hb with rfl | hb'
        · exact Or.inr (by simp)
        · rcases ih b hb' with h | h
          · exact Or.inl h
          · exact Or.inr (List.mem_cons_of_mem _ h)

theorem insertPoint_sorted (m : RMap) (k : RKey) (v : Bool)
    (hs : RMap.SortedM m) : RMap.SortedM (insertPoint m k v) := by
  induction m with
  | nil => simp [insertPoint, RMap.SortedM]
  | cons a t ih =>
    rcases a with ⟨k', v'⟩
    obtain ⟨hhead, htail⟩ := List.pairwise_cons.mp hs
    simp only [insertPoint]
    split
    · refine List.pairwise_cons.mpr ⟨?_, hs⟩
      intro b hb
      rcases List.mem_cons.mp hb with rfl | hb'
      · assumption
      · exact keyLt_trans ‹keyLt k k'› (hhead b hb')
    · split
      · split
        · exact hs
        · exact htail
      · have hk'k : keyLt k' k := by
          rcases keyLt_total k k' with h | h | h
          · exact absurd h ‹¬ keyLt k k'›
          · exact absurd h ‹¬ k = k'›
          · exact h
        refine List.pairwise_cons.mpr ⟨?_, ih htail⟩
        intro b hb
        rcases insertPoint_mem t k v b hb with rfl | h
        · exact hk'k
        · exact hhead b h

theorem lookupB_insertPoint_self (m : RMap) (k : RKey) (v : Bool)
    (hs : RMap.SortedM m) :
    RMap.lookupB (insertPoint m k v) k = cancelStep (RMap.lookupB m k) v := by
  induction m with
  | nil => simp [insertPoint, RMap.lookupB, cancelStep]
  | cons a t ih =>
    rcases a with ⟨k', v'⟩
    obtain ⟨hhead, htail⟩ := List.pairwise_cons.mp hs
    simp only [insertPoint]
    split
    · -- keyLt k k': inserted in front, and k occurs nowhere in the old map
      have hnone : RMap.lookupB ((k', v') :: t) k = none := by
        apply lookupB_none_of_keyLt _ _ hs
        intro p hp
        rcases List.mem_cons.mp hp with rfl | hp'
        · exact ‹keyLt k k'›
        · exact keyLt_trans ‹keyLt k k'› (hhead p hp')
      rw [hnone]
      simp [RMap.lookupB, cancelStep]
    · split
      · -- k = k': occupied
        subst ‹k = k'›
        have hnone : RMap.lookupB t k = none := by
          apply lookupB_none_of_keyLt _ _ htail
          intro p hp
          exact hhead p hp
        split
        · subst ‹v' = v›
          simp [RMap.lookupB, cancelStep]
        · rw [hnone]
          simp [RMap.lookupB, cancelStep, ‹¬ v' = v›]
      · -- k beyond the head
        have hne : ¬ k' = k := fun hh => ‹¬ k = k'› hh.symm
        simp only [RMap.lookupB, if_neg hne]
        exact ih htail

theorem lookupB_insertPoint_other (m : RMap) (k q : RKey) (v : Bool)
    (hq : q ≠ k) :
    RMap.lookupB (insertPoint m k v) q = RMap.lookupB m q := by
  induction m with
  | nil =>
    simp only [insertPoint, RMap.lookupB]
    rw [if_neg (fun hh : k = q => hq hh.symm)]
  | cons a t ih =>
    rcases a with ⟨k', v'⟩
    simp only [insertPoint]
    split
    · simp only [RMap.lookupB]
      rw [if_neg (fun hh : k = q => hq hh.symm)]
    · split
      · subst ‹k = k'›
        split
        · subst ‹v' = v›
          rfl
        · simp only [RMap.lookupB]
          rw [if_neg (fun hh : k = q => hq hh.symm)]
      · simp only [RMap.lookupB]
        split
        · rfl
        · exact ih

theorem rmInsert_sorted (m : RMap) (r : Nat × Nat) (id : Nat)
    (hs : RMap.SortedM m) : RMap.SortedM (rmInsert m r id) := by
  unfold rmInsert
  split
  · exact hs
  · exact insertPoint_sorted _ _ _ (insertPoint_sorted _ _ _ hs)

theorem buildMap_sorted_aux (marks : List Mark) (m : RMap) (hs : RMap.SortedM m) :
    RMap.SortedM (marks.foldl (fun m mk => rmInsert m mk.1 mk.2) m) := by
  induction marks generalizing m with
  | nil => exact hs
  | cons mk tl ih => exact ih _ (rmInsert_sorted _ _ _ hs)

theorem buildMap_sorted (marks : List Mark) : RMap.SortedM (buildMap marks) :=
  buildMap_sorted_aux marks [] List.Pairwise.nil

theorem lookupB_rmInsert (m : RMap) (r : Nat × Nat) (id : Nat) (k : RKey)
    (hs : RMap.SortedM m) :
    RMap.lookupB (rmInsert m r id) k =
      ((contrib (r, id)).filterMap
        (fun c => if c.1 = k then some c.2 else none)).foldl cancelStep
        (RMap.lookupB m k) := by
  unfold rmInsert contrib
  dsimp only
  by_cases hv : r.1 ≥ r.2
  · rw [if_pos hv, if_neg (by omega)]
    rfl
  · have hlt : r.1 < r.2 := by omega
    rw [if_neg hv, if_pos hlt]
    have hkeys : ((r.1, id) : RKey) ≠ ((r.2, id) : RKey) := by
      intro hh
      have hre : r.1 = r.2 := congrArg Prod.fst hh
      omega
    by_cases h1 : ((r.1, id) : RKey) = k
    · have h2 : ¬ ((r.2, id) : RKey) = k := fun hh => hkeys (h1.trans hh.symm)
      subst h1
      rw [List.filterMap_cons, List.filterMap_cons]
      rw [if_pos rfl, if_neg h2]
      simp only [List.filterMap_nil, List.foldl_cons, List.foldl_nil]
      rw [lookupB_insertPoint_other _ _ _ _ hkeys]
      rw [lookupB_insertPoint_self m (r.1, id) true hs]
    · by_cases h2 : ((r.2, id) : RKey) = k
      · subst h2
        rw [List.filterMap_cons, List.filterMap_cons]
        rw [if_neg h1, if_pos rfl]
        simp only [List.filterMap_nil, List.foldl_cons, List.foldl_nil]
        rw [lookupB_insertPoint_self (insertPoint m (r.1, id) true) (r.2, id)
          false (insertPoint_sorted _ _ _ hs)]
        rw [lookupB_insertPoint_other _ _ _ _ (fun hh => h1 hh.symm)]
      · rw [List.filterMap_cons, List.filterMap_cons]
        rw [if_neg h1, if_neg h2]
        simp only [List.filterMap_nil, List.foldl_nil]
        rw [lookupB_insertPoint_other _ _ _ _ (fun hh : k = (r.2, id) => h2 hh.symm)]
        rw [lookupB_insertPoint_other _ _ _ _ (fun hh : k = (r.1, id) => h1 hh.symm)]

theorem lookupB_buildMap_aux (marks : List Mark) (m : RMap) (k : RKey)
    (hs : RMap.SortedM m) :
    RMap.lookupB (marks.foldl (fun m mk => rmInsert m mk.1 mk.2) m) k =
      (contribVals marks k).foldl cancelStep (RMap.lookupB m k) := by
  induction marks generalizing m with
  | nil => rfl
  | cons mk tl ih =>
    simp only [List.foldl_cons]
    rw [ih _ (rmInsert_sorted _ _ _ hs)]
    rw [lookupB_rmInsert _ _ _ _ hs]
    show _ = (contribVals (mk :: tl) k).foldl cancelStep (RMap.lookupB m k)
    have hsplit : contribVals (mk :: tl) k =
        ((contrib mk).filterMap (fun c => if c.1 = k then some c.2 else none)) ++
          contribVals tl k := by
      unfold contribVals contributions
      simp [List.filterMap_append]
    rw [hsplit, List.foldl_append]

theorem lookupB_buildMap (marks : List Mark) (k : RKey) :
    RMap.lookupB (buildMap marks) k = (contribVals marks k).foldl cancelStep none :=
  lookupB_buildMap_aux marks [] k List.Pairwise.nil

theorem contributions_perm {l1 l2 : List Mark} (h : l1.Perm l2) :
    (contributions l1).Perm (contributions l2) :=
  List.Perm.flatten (h.map contrib)

theorem filterMap_key_nil (L : List REntry) (k : RKey)
    (h : k ∉ L.map Prod.fst) :
    L.filterMap (fun c => if c.1 = k then some c.2 else none) = [] := by
  induction L with
  | nil => rfl
  | cons c t ih =>
    rw [List.filterMap_cons]
    rw [if_neg (fun hh : c.1 = k => h (by
      rw [← hh]
      exact List.mem_map_of_mem _ (by simp)))]
    exact ih (fun hm => h (by
      simp only [List.map_cons, List.mem_cons]
      exact Or.inr hm))

theorem filterMap_key_len_le (L : List REntry) (k : RKey)
    (hnd : (L.map Prod.fst).Nodup) :
    (L.filterMap (fun c => if c.1 = k then some c.2 else none)).length ≤ 1 := by
  induction L with
  | nil => simp
  | cons c t ih =>
    rw [List.map_cons, List.nodup_cons] at hnd
    rw [List.filterMap_cons]
    by_cases hc : c.1 = k
    · rw [if_pos hc]
      rw [filterMap_key_nil t k (hc ▸ hnd.1)]
      simp
    · rw [if_neg hc]
      exact ih hnd.2

theorem contribVals_eq_of_perm {l1 l2 : List Mark} (h : l1.Perm l2)
    (hnc : noCoincidence l1) (k : RKey) : contribVals l1 k = contribVals l2 k := by
  have hp : (contribVals l1 k).Perm (contribVals l2 k) :=
    (contributions_perm h).filterMap _
  have hlen : (contribVals l1 k).length ≤ 1 :=
    filterMap_key_len_le (contributions l1) k hnc
  rcases hv : contribVals l1 k with _ | ⟨a, tl⟩
  · rw [hv] at hp
    exact (List.perm_nil.mp hp.symm).symm
  · rw [hv] at hp hlen
    have htl : tl = [] := by
      simp only [List.length_cons] at hlen
      exact List.eq_nil_of_length_eq_zero (by omega)
    subst htl
    exact (List.perm_singleton.mp hp.symm).symm

theorem buildMap_eq_of_perm {l1 l2 : List Mark} (h : l1.Perm l2)
    (hnc : noCoincidence l1) : buildMap l1 = buildMap l2 := by
  refine sortedOv_ext keyLt (fun _ _ => keyLt_asymm) (fun _ _ _ => keyLt_trans)
    keyLt_total _ _ (buildMap_sorted l1) (buildMap_sorted l2) ?_
  intro k
  rw [← lookupB_eq_lookupOv, ← lookupB_eq_lookupOv, lookupB_buildMap,
    lookupB_buildMap, contribVals_eq_of_perm h hnc k]

/-- C2 (amended): for every multiset of marks in which no two boundary
contributions land on the same `(offset, label)` point (the coincidence-free
condition of spec §4.2), inserting any two permutations of it into an empty
scope and sweeping yields identical consolidated partitions.  (Unrestricted, the
claim fails: see the counterexample.) -/
theorem C2_order_independence_amended (l1 l2 : List Mark)
    (hnc : noCoincidence l1) (h : l1.Perm l2) :
    sweepOut l1 = sweepOut l2 := by
  unfold sweepOut
  rw [buildMap_eq_of_perm h hnc]

/-- C2 witness: the two orders of the coincidence-free multiset
`{(0..10, L0), (4..5, L1)}`. -/
theorem C2_order_independence_amended_witness :
    sweepOut [((0, 10), 0), ((4, 5), 1)] = sweepOut [((4, 5), 1), ((0, 10), 0)] :=
  C2_order_independence_amended _ _ (by decide)
    (List.Perm.swap ((4, 5), 1) ((0, 10), 0) [])

/-! ## Sweep stack lemmas (C3, C6) -/

theorem stackInsert_key_mem (s : RStack) (id : Nat) (en : Bool) :
    ∀ b ∈ stackInsert s id en, b.1 = id ∨ b.1 ∈ s.map Prod.fst := by
  induction s with
  | nil =>
    intro b hb
    cases en <;> simp [stackInsert] at hb
    · exact Or.inl (by rw [hb])
  | cons a t ih =>
    rcases a with ⟨i, c⟩
    intro b hb
    simp only [stackInsert] at hb
    split at hb
    · split at hb
      · rcases List.mem_cons.mp hb with rfl | hb'
        · exact Or.inl rfl
        · exact Or.inr (List.mem_map_of_mem _ hb')
      · exact Or.inr (List.mem_map_of_mem _ hb)
    · split at hb
      · split at hb
        · rcases List.mem_cons.mp hb with rfl | hb'
          · exact Or.inr (by simp)
          · exact Or.inr (List.mem_map_of_mem _ (List.mem_cons_of_mem _ hb'))
        · split at hb
          · exact Or.inr (List.mem_map_of_mem _ (List.mem_cons_of_mem _ hb))
          · rcases List.mem_cons.mp hb with rfl | hb'
            · exact Or.inr (by simp)
            · exact Or.inr (List.mem_map_of_mem _ (List.mem_cons_of_mem _ hb'))
      · rcases List.mem_cons.mp hb with rfl | hb'
        · exact Or.inr (by simp)
        · rcases ih b hb' with h | h
          · exact Or.inl h
          · right
            simp only [List.map_cons, List.mem_cons]
            exact Or.inr h

theorem stackInsert_wf (s : RStack) (id : Nat) (en : Bool) (hwf : StackWF s) :
    StackWF (stackInsert s id en) := by
  induction s with
  | nil =>
    cases en <;> constructor <;> simp [stackInsert, StackWF]
  | cons a t ih =>
    rcases a with ⟨i, c⟩
    obtain ⟨hsort, hpos⟩ := hwf
    obtain ⟨hhead, htail⟩ := List.pairwise_cons.mp hsort
    have hwft : StackWF t := ⟨htail, fun p hp => hpos p (List.mem_cons_of_mem _ hp)⟩
    have hcpos : 0 < c := hpos (i, c) (by simp)
    simp only [stackInsert]
    split
    · split
      · refine ⟨List.pairwise_cons.mpr ⟨?_, hsort⟩, ?_⟩
        · intro b hb
          rcases List.mem_cons.mp hb with rfl | hb'
          · assumption
          · exact lt_trans ‹id < i› (hhead b hb')
        · intro p hp
          rcases List.mem_cons.mp hp with rfl | hp'
          · omega
          · exact hpos p hp'
      · exact ⟨hsort, hpos⟩
    · split
      · split
        · refine ⟨List.pairwise_cons.mpr ⟨hhead, htail⟩, ?_⟩
          intro p hp
          rcases List.mem_cons.mp hp with rfl | hp'
          · omega
          · exact hpos p (List.mem_cons_of_mem _ hp')
        · split
          · exact ⟨htail, fun p hp => hpos p (List.mem_cons_of_mem _ hp)⟩
          · refine ⟨List.pairwise_cons.mpr ⟨hhead, htail⟩, ?_⟩
            intro p hp
            rcases List.mem_cons.mp hp with rfl | hp'
            · omega
            · exact hpos p (List.mem_cons_of_mem _ hp')
      · obtain ⟨hsort', hpos'⟩ := ih hwft
        refine ⟨List.pairwise_cons.mpr ⟨?_, hsort'⟩, ?_⟩
        · intro b hb
          rcases stackInsert_key_mem t id en b hb with h | h
          · rw [h]; omega
          · obtain ⟨p, hp, hbp⟩ := List.mem_map.mp h
            rw [← hbp]
            exact hhead p hp
        · intro p hp
          rcases List.mem_cons.mp hp with rfl | hp'
          · exact hcpos
          · exact hpos' p hp'

theorem lookupCount_nil_of_forall_lt (s : RStack) (j : Nat)
    (h : ∀ p ∈ s, j < p.1) : lookupCount s j = 0 := by
  unfold lookupCount
  rw [lookupN_eq_none_of_forall_lt s j h]


theorem lookupCount_cons (i c : Nat) (t : RStack) (j : Nat) :
    lookupCount ((i, c) :: t) j = if i = j then c else lookupCount t j := by
  by_cases hij : i = j
  · simp [lookupCount, lookupN, hij]
  · simp [lookupCount, lookupN, hij]

theorem lookupCount_stackInsert_other (s : RStack) (id : Nat) (en : Bool) (j : Nat)
    (hj : ¬ j = id) : lookupCount (stackInsert s id en) j = lookupCount s j := by
  have hj' : ¬ id = j := fun hh => hj hh.symm
  induction s with
  | nil =>
    cases en
    · rfl
    · show lookupCount [(id, 1)] j = lookupCount [] j
      rw [lookupCount_cons, if_neg hj']
  | cons a t ih =>
    rcases a with ⟨i, c⟩
    simp only [stackInsert]
    split
    · split
      · rw [lookupCount_cons, if_neg hj']
      · rfl
    · split
      · subst ‹id = i›
        split
        · rw [lookupCount_cons, lookupCount_cons, if_neg hj', if_neg hj']
        · split
          · rw [lookupCount_cons, if_neg hj']
          · rw [lookupCount_cons, lookupCount_cons, if_neg hj', if_neg hj']
      · rw [lookupCount_cons, lookupCount_cons]
        split
        · rfl
        · exact ih

theorem lookupCount_stackInsert_self (s : RStack) (id : Nat) (en : Bool)
    (hwf : StackWF s) :
    lookupCount (stackInsert s id en) id =
      if en then lookupCount s id + 1 else lookupCount s id - 1 := by
  induction s with
  | nil =>
    cases en
    · rfl
    · show lookupCount [(id, 1)] id = lookupCount [] id + 1
      rw [lookupCount_cons, if_pos rfl]
      rfl
  | cons a t ih =>
    rcases a with ⟨i, c⟩
    obtain ⟨hsort, hpos⟩ := hwf
    obtain ⟨hhead, htail⟩ := List.pairwise_cons.mp hsort
    have hwft : StackWF t := ⟨htail, fun p hp => hpos p (List.mem_cons_of_mem _ hp)⟩
    simp only [stackInsert]
    split
    · have h0 : lookupCount ((i, c) :: t) id = 0 := by
        apply lookupCount_nil_of_forall_lt
        intro p hp
        rcases List.mem_cons.mp hp with rfl | hp'
        · assumption
        · exact lt_trans ‹id < i› (hhead p hp')
      split
      · rw [lookupCount_cons, if_pos rfl, h0]
      · rw [h0]
    · split
      · subst ‹id = i›
        split
        · rw [lookupCount_cons, lookupCount_cons, if_pos rfl, if_pos rfl]
        · split
          · subst ‹c = 1›
            rw [lookupCount_cons, if_pos rfl]
            rw [lookupCount_nil_of_forall_lt t id hhead]
          · rw [lookupCount_cons, lookupCount_cons, if_pos rfl, if_pos rfl]
      · have hne : ¬ i = id := by omega
        rw [lookupCount_cons, lookupCount_cons, if_neg hne, if_neg hne]
        exact ih hwft

theorem mem_stackIds_iff (s : RStack) (j : Nat) (hwf : StackWF s) :
    j ∈ stackIds s ↔ lookupCount s j ≠ 0 := by
  induction s with
  | nil => simp [stackIds, lookupCount, lookupN]
  | cons a t ih =>
    rcases a with ⟨i, c⟩
    obtain ⟨hsort, hpos⟩ := hwf
    obtain ⟨hhead, htail⟩ := List.pairwise_cons.mp hsort
    have hwft : StackWF t := ⟨htail, fun p hp => hpos p (List.mem_cons_of_mem _ hp)⟩
    have hcpos : 0 < c := hpos (i, c) (by simp)
    rw [lookupCount_cons]
    simp only [stackIds, List.map_cons, List.mem_cons]
    by_cases hij : i = j
    · subst hij
      rw [if_pos rfl]
      simp
      omega
    · rw [if_neg hij]
      simp only [stackIds] at ih
      rw [← ih hwft]
      constructor
      · intro hmem
        rcases hmem with h | h
        · exact absurd h (fun hh => hij hh.symm)
        · exact h
      · intro h
        exact Or.inr h

theorem stackMaybe_true_eq (s : RStack) (id : Nat) (en : Bool)
    (h : (stackMaybe s id en).2 = true) :
    (stackMaybe s id en).1 = stackInsert s id en := by
  induction s with
  | nil =>
    cases en
    · rfl
    · simp [stackMaybe] at h
  | cons a t ih =>
    rcases a with ⟨i, c⟩
    by_cases h1 : id < i
    · cases en
      · simp [stackMaybe, stackInsert, h1]
      · simp [stackMaybe, h1] at h
    · by_cases h2 : id = i
      · cases en
        · by_cases h3 : c = 1
          · simp [stackMaybe, h1, h2, h3] at h
          · simp [stackMaybe, stackInsert, h1, h2, h3]
        · simp [stackMaybe, stackInsert, h1, h2]
      · have h' : (stackMaybe t id en).2 = true := by
          simpa [stackMaybe, h1, h2] using h
        simp [stackMaybe, stackInsert, h1, h2, ih h']

theorem stackMaybe_true_ids (s : RStack) (id : Nat) (en : Bool)
    (h : (stackMaybe s id en).2 = true) :
    stackIds (stackMaybe s id en).1 = stackIds s := by
  induction s with
  | nil =>
    cases en
    · rfl
    · simp [stackMaybe] at h
  | cons a t ih =>
    rcases a with ⟨i, c⟩
    by_cases h1 : id < i
    · cases en
      · simp [stackMaybe, h1]
      · simp [stackMaybe, h1] at h
    · by_cases h2 : id = i
      · cases en
        · by_cases h3 : c = 1
          · simp [stackMaybe, h1, h2, h3] at h
          · simp [stackMaybe, stackIds, h1, h2, h3]
        · simp [stackMaybe, stackIds, h1, h2]
      · have h' : (stackMaybe t id en).2 = true := by
          simpa [stackMaybe, h1, h2] using h
        simp only [stackMaybe, if_neg h1, if_neg h2]
        simp only [stackIds, List.map_cons]
        have := ih h'
        simp only [stackIds] at this
        rw [this]

theorem stackMaybe_false_stack (s : RStack) (id : Nat) (en : Bool)
    (h : (stackMaybe s id en).2 = false) :
    (stackMaybe s id en).1 = s := by
  induction s with
  | nil => rfl
  | cons a t ih =>
    rcases a with ⟨i, c⟩
    by_cases h1 : id < i
    · simp [stackMaybe, h1]
    · by_cases h2 : id = i
      · cases en
        · by_cases h3 : c = 1
          · simp [stackMaybe, h1, h2, h3]
          · simp [stackMaybe, h1, h2, h3] at h
        · simp [stackMaybe, h1, h2] at h
      · have h' : (stackMaybe t id en).2 = false := by
          simpa [stackMaybe, h1, h2] using h
        simp [stackMaybe, h1, h2, ih h']

theorem stackMaybe_false_count (s : RStack) (id : Nat) (en : Bool)
    (hwf : StackWF s) (h : (stackMaybe s id en).2 = false) :
    (en = true ∧ lookupCount s id = 0) ∨ (en = false ∧ lookupCount s id = 1) := by
  induction s with
  | nil =>
    cases en
    · simp [stackMaybe] at h
    · exact Or.inl ⟨rfl, rfl⟩
  | cons a t ih =>
    rcases a with ⟨i, c⟩
    obtain ⟨hsort, hpos⟩ := hwf
    obtain ⟨hhead, htail⟩ := List.pairwise_cons.mp hsort
    have hwft : StackWF t := ⟨htail, fun p hp => hpos p (List.mem_cons_of_mem _ hp)⟩
    have h0 : id < i → lookupCount ((i, c) :: t) id = 0 := by
      intro hlt
      apply lookupCount_nil_of_forall_lt
      intro p hp
      rcases List.mem_cons.mp hp with rfl | hp'
      · exact hlt
      · exact lt_trans hlt (hhead p hp')
    by_cases h1 : id < i
    · cases en
      · simp [stackMaybe, h1] at h
      · exact Or.inl ⟨rfl, h0 h1⟩
    · by_cases h2 : id = i
      · cases en
        · by_cases h3 : c = 1
          · refine Or.inr ⟨rfl, ?_⟩
            rw [lookupCount_cons, if_pos h2.symm]
            exact h3
          · simp [stackMaybe, h1, h2, h3] at h
        · simp [stackMaybe, h1, h2] at h
      · have h' : (stackMaybe t id en).2 = false := by
          simpa [stackMaybe, h1, h2] using h
        have hne : ¬ i = id := fun hh => h2 hh.symm
        rw [lookupCount_cons, if_neg hne]
        exact ih hwft h'

theorem stackMaybe_false_flip (s : RStack) (id : Nat) (en : Bool)
    (hwf : StackWF s) (h : (stackMaybe s id en).2 = false) :
    (id ∈ stackIds (stackInsert s id en) ↔ ¬ id ∈ stackIds s) := by
  rw [mem_stackIds_iff _ _ (stackInsert_wf _ _ _ hwf), mem_stackIds_iff _ _ hwf]
  rw [lookupCount_stackInsert_self _ _ _ hwf]
  rcases stackMaybe_false_count s id en hwf h with ⟨hen, hc⟩ | ⟨hen, hc⟩ <;>
    subst hen <;> rw [hc] <;> simp

theorem stackInsert_other_mem (s : RStack) (id : Nat) (en : Bool) (j : Nat)
    (hj : ¬ j = id) (hwf : StackWF s) :
    (j ∈ stackIds (stackInsert s id en) ↔ j ∈ stackIds s) := by
  rw [mem_stackIds_iff _ _ (stackInsert_wf _ _ _ hwf), mem_stackIds_iff _ _ hwf,
    lookupCount_stackInsert_other s id en j hj]

/-! ## Look-ahead structure lemmas (C3, C6) -/

theorem foldl_stackInsert_wf (C : List REntry) (st : RStack) (hwf : StackWF st) :
    StackWF (C.foldl (fun s ev => stackInsert s ev.1.2 ev.2) st) := by
  induction C generalizing st with
  | nil => exact hwf
  | cons ev tl ih => exact ih _ (stackInsert_wf _ _ _ hwf)

theorem lookahead_split (offset : Nat) (st : RStack) (e : Nat) (l : List REntry) :
    ∃ C, l = C ++ (lookahead offset st e l).2.2 ∧
      (lookahead offset st e l).2.1 =
        C.foldl (fun s ev => stackInsert s ev.1.2 ev.2) st ∧
      (∀ D E, C = D ++ E → (∀ ev ∈ E, ¬ ev.1.1 = offset) →
        stackIds (D.foldl (fun s ev => stackInsert s ev.1.2 ev.2) st) =
          stackIds (lookahead offset st e l).2.1) := by
  induction l generalizing st e with
  | nil =>
    refine ⟨[], by simp [lookahead], rfl, ?_⟩
    intro D E hDE _
    obtain ⟨rfl, rfl⟩ := List.append_eq_nil.mp hDE.symm
    rfl
  | cons ev rest ih =>
    rcases ev with ⟨⟨o2, id⟩, en⟩
    by_cases ho : o2 = offset
    · obtain ⟨C', h1, h2, h3⟩ := ih (stackInsert st id en) o2
      refine ⟨((o2, id), en) :: C', ?_, ?_, ?_⟩
      · simp only [lookahead, if_pos ho]
        rw [List.cons_append]
        exact congrArg _ h1
      · simp only [lookahead, if_pos ho]
        rw [List.foldl_cons]
        exact h2
      · intro D E hDE hE
        simp only [lookahead, if_pos ho]
        cases D with
        | nil =>
          exfalso
          simp only [List.nil_append] at hDE
          exact hE ((o2, id), en) (hDE ▸ by simp) ho
        | cons d D' =>
          rw [List.cons_append] at hDE
          injection hDE with hd ht
          subst hd
          rw [List.foldl_cons]
          exact h3 D' E ht hE
    · rcases hsm : stackMaybe st id en with ⟨st', b⟩
      cases b
      · refine ⟨[], ?_, ?_, ?_⟩
        · simp [lookahead, if_neg ho, hsm]
        · simp [lookahead, if_neg ho, hsm]
        · intro D E hDE _
          obtain ⟨rfl, rfl⟩ := List.append_eq_nil.mp hDE.symm
          simp [lookahead, if_neg ho, hsm]
      · have hb : (stackMaybe st id en).2 = true := by rw [hsm]
        have hst' : st' = stackInsert st id en := by
          have := stackMaybe_true_eq st id en hb
          rw [hsm] at this
          exact this
        have hids : stackIds st' = stackIds st := by
          have := stackMaybe_true_ids st id en hb
          rw [hsm] at this
          exact this
        obtain ⟨C', h1, h2, h3⟩ := ih st' o2
        refine ⟨((o2, id), en) :: C', ?_, ?_, ?_⟩
        · simp only [lookahead, if_neg ho, hsm]
          rw [List.cons_append]
          exact congrArg _ h1
        · simp only [lookahead, if_neg ho, hsm]
          rw [List.foldl_cons, ← hst']
          exact h2
        · intro D E hDE hE
          simp only [lookahead, if_neg ho, hsm]
          cases D with
          | nil =>
            simp only [List.nil_append] at hDE
            have htail : ∀ ev ∈ C', ¬ ev.1.1 = offset := by
              intro ev hev
              exact hE ev (hDE ▸ List.mem_cons_of_mem _ hev)
            have := h3 [] C' rfl htail
            simp only [List.foldl_nil] at this ⊢
            rw [← this, hids]
          | cons d D' =>
            rw [List.cons_append] at hDE
            injection hDE with hd ht
            subst hd
            rw [List.foldl_cons, ← hst']
            exact h3 D' E ht hE

theorem lookahead_stop (offset : Nat) (st : RStack) (e : Nat) (l : List REntry)
    (r : REntry) (rest' : List REntry)
    (h : (lookahead offset st e l).2.2 = r :: rest') :
    (lookahead offset st e l).1 = r.1.1 ∧
      (stackMaybe (lookahead offset st e l).2.1 r.1.2 r.2).2 = false ∧
      ¬ r.1.1 = offset := by
  induction l generalizing st e with
  | nil => simp [lookahead] at h
  | cons ev rest ih =>
    rcases ev with ⟨⟨o2, id⟩, en⟩
    by_cases ho : o2 = offset
    · simp only [lookahead, if_pos ho] at h ⊢
      exact ih _ _ h
    · rcases hsm : stackMaybe st id en with ⟨st', b⟩
      cases b
      · simp only [lookahead, if_neg ho, hsm] at h ⊢
        injection h with hr hrest
        subst hr
        refine ⟨rfl, ?_, ho⟩
        show (stackMaybe st id en).2 = false
        rw [hsm]
      · simp only [lookahead, if_neg ho, hsm] at h ⊢
        exact ih _ _ h

theorem lookahead_mem_preserved (offset : Nat) (st : RStack) (e : Nat)
    (l : List REntry) (j : Nat) (hwf : StackWF st)
    (hj : ∀ ev ∈ l, ev.1.1 = offset → ¬ ev.1.2 = j) :
    (j ∈ stackIds (lookahead offset st e l).2.1 ↔ j ∈ stackIds st) := by
  induction l generalizing st e with
  | nil => simp [lookahead]
  | cons ev rest ih =>
    rcases ev with ⟨⟨o2, id⟩, en⟩
    by_cases ho : o2 = offset
    · simp only [lookahead, if_pos ho]
      have hid : ¬ id = j := hj ((o2, id), en) (by simp) ho
      have := ih (stackInsert st id en) o2 (stackInsert_wf _ _ _ hwf)
        (fun ev hev => hj ev (List.mem_cons_of_mem _ hev))
      rw [this]
      exact stackInsert_other_mem st id en j (fun hh => hid hh.symm) hwf
    · rcases hsm : stackMaybe st id en with ⟨st', b⟩
      cases b
      · simp only [lookahead, if_neg ho, hsm]
      · have hb : (stackMaybe st id en).2 = true := by rw [hsm]
        have hst' : st' = stackInsert st id en := by
          have := stackMaybe_true_eq st id en hb
          rw [hsm] at this
          exact this
        have hids : stackIds st' = stackIds st := by
          have := stackMaybe_true_ids st id en hb
          rw [hsm] at this
          exact this
        simp only [lookahead, if_neg ho, hsm]
        have := ih st' o2 (hst' ▸ stackInsert_wf _ _ _ hwf)
          (fun ev hev => hj ev (List.mem_cons_of_mem _ hev))
        rw [this, hids]

/-! ## Sweep segment structure (C3, C6) -/

theorem sweepAux_cons_skip (o id : Nat) (en : Bool) (rest : List REntry) (st : RStack)
    (h : stackIsEmpty (lookahead o (stackInsert st id en) o rest).2.1 = true) :
    sweepAux (((o, id), en) :: rest) st =
      sweepAux (lookahead o (stackInsert st id en) o rest).2.2
        (lookahead o (stackInsert st id en) o rest).2.1 := by
  simp only [sweepAux_cons, h, if_true]

theorem sweepAux_cons_emit (o id : Nat) (en : Bool) (rest : List REntry) (st : RStack)
    (h : stackIsEmpty (lookahead o (stackInsert st id en) o rest).2.1 = false) :
    sweepAux (((o, id), en) :: rest) st =
      ((o, (lookahead o (stackInsert st id en) o rest).1,
        stackIds (lookahead o (stackInsert st id en) o rest).2.1) ::
        (sweepAux (lookahead o (stackInsert st id en) o rest).2.2
          (lookahead o (stackInsert st id en) o rest).2.1).1,
       (sweepAux (lookahead o (stackInsert st id en) o rest).2.2
         (lookahead o (stackInsert st id en) o rest).2.1).2) := by
  simp only [sweepAux_cons, h, Bool.false_eq_true, if_false]

theorem sweepAux_starts_aux (n : Nat) : ∀ (l : List REntry) (st : RStack),
    l.length ≤ n →
    ∀ en ∈ (sweepAux l st).1, en.1 ∈ l.map (fun ev => ev.1.1) := by
  induction n with
  | zero =>
    intro l st hlen en hen
    rw [List.length_eq_zero.mp (Nat.le_zero.mp hlen)] at hen
    rw [sweepAux_nil] at hen
    simp at hen
  | succ n ih =>
    intro l st hlen en hen
    match l with
    | [] =>
      rw [sweepAux_nil] at hen
      simp at hen
    | ⟨⟨o, id⟩, enb⟩ :: rest =>
      obtain ⟨C, hC, hfold, hids⟩ :=
        lookahead_split o (stackInsert st id enb) o rest
      have hsuffix : ∀ x, x ∈ ((lookahead o (stackInsert st id enb) o rest).2.2.map
          (fun ev => ev.1.1)) → x ∈ ((((o, id), enb) :: rest).map (fun ev => ev.1.1)) := by
        intro x hx
        simp only [List.map_cons, List.mem_cons]
        right
        rw [hC, List.map_append]
        exact List.mem_append_right _ hx
      have hlen' : (lookahead o (stackInsert st id enb) o rest).2.2.length ≤ n := by
        have := lookahead_length_le o (stackInsert st id enb) o rest
        simp only [List.length_cons] at hlen
        omega
      by_cases hemp : stackIsEmpty (lookahead o (stackInsert st id enb) o rest).2.1
      · rw [sweepAux_cons_skip o id enb rest st hemp] at hen
        exact hsuffix _ (ih _ _ hlen' en hen)
      · rw [sweepAux_cons_emit o id enb rest st (by simpa using hemp)] at hen
        rcases List.mem_cons.mp hen with rfl | hen'
        · simp
        · exact hsuffix _ (ih _ _ hlen' en hen')

theorem keyLt_offset_le {a b : RKey} (h : keyLt a b) : a.1 ≤ b.1 := by
  rcases h with h | ⟨h, _⟩
  · omega
  · omega

theorem sweepAux_chain_aux (n : Nat) : ∀ (l : List REntry) (st : RStack),
    l.length ≤ n → RMap.SortedM l → StackWF st →
    List.Chain' touchOk (sweepAux l st).1 := by
  induction n with
  | zero =>
    intro l st hlen _ _
    rw [List.length_eq_zero.mp (Nat.le_zero.mp hlen), sweepAux_nil]
    exact List.chain'_nil
  | succ n ih =>
    intro l st hlen hsort hwf
    match l with
    | [] =>
      rw [sweepAux_nil]
      exact List.chain'_nil
    | ⟨⟨o, id⟩, enb⟩ :: rest =>
      obtain ⟨C, hC, hfold, _⟩ := lookahead_split o (stackInsert st id enb) o rest
      have hwrest : RMap.SortedM rest := (List.pairwise_cons.mp hsort).2
      have hsorted' : RMap.SortedM (lookahead o (stackInsert st id enb) o rest).2.2 := by
        rw [hC] at hwrest
        exact hwrest.sublist (List.sublist_append_right _ _)
      have hwf1 : StackWF (stackInsert st id enb) := stackInsert_wf _ _ _ hwf
      have hwf' : StackWF (lookahead o (stackInsert st id enb) o rest).2.1 := by
        rw [hfold]
        exact foldl_stackInsert_wf C _ hwf1
      have hlen' : (lookahead o (stackInsert st id enb) o rest).2.2.length ≤ n := by
        have := lookahead_length_le o (stackInsert st id enb) o rest
        simp only [List.length_cons] at hlen
        omega
      have hrec : List.Chain' touchOk
          (sweepAux (lookahead o (stackInsert st id enb) o rest).2.2
            (lookahead o (stackInsert st id enb) o rest).2.1).1 :=
        ih _ _ hlen' hsorted' hwf'
      by_cases hemp : stackIsEmpty (lookahead o (stackInsert st id enb) o rest).2.1
      · rw [sweepAux_cons_skip o id enb rest st hemp]
        exact hrec
      · rw [sweepAux_cons_emit o id enb rest st (by simpa using hemp)]
        refine List.chain'_cons'.mpr ⟨?_, hrec⟩
        intro b hb
        rcases hrest' : (lookahead o (stackInsert st id enb) o rest).2.2 with
          _ | ⟨⟨⟨o2, X⟩, enX⟩, rest2⟩
        · rw [hrest', sweepAux_nil] at hb
          simp at hb
        · obtain ⟨he, hstop, hneo⟩ :=
            lookahead_stop o (stackInsert st id enb) o rest _ _ hrest'
          rw [hrest'] at hb hsorted'
          obtain ⟨hhead2, htail2⟩ := List.pairwise_cons.mp hsorted'
          -- events of `rest2` at offset `o2` have ids above `X`
          have hjX : ∀ ev ∈ rest2, ev.1.1 = o2 → ¬ ev.1.2 = X := by
            intro ev hev heq hid
            rcases hhead2 ev hev with hlt | ⟨_, hlt⟩
            · simp only at hlt
              omega
            · simp only at hlt
              omega
          have hwf1' : StackWF (stackInsert
              (lookahead o (stackInsert st id enb) o rest).2.1 X enX) :=
            stackInsert_wf _ _ _ hwf'
          by_cases hemp2 : stackIsEmpty (lookahead o2 (stackInsert
              (lookahead o (stackInsert st id enb) o rest).2.1 X enX) o2 rest2).2.1
          · -- second segment skipped: all later entries start strictly after `o2`
            rw [sweepAux_cons_skip o2 X enX rest2 _ hemp2] at hb
            have hb' := List.mem_of_mem_head? hb
            have hstart := sweepAux_starts_aux
              (lookahead o2 (stackInsert
                (lookahead o (stackInsert st id enb) o rest).2.1 X enX) o2 rest2).2.2.length
              _ _ le_rfl b hb'
            -- every event offset remaining after the second look-ahead exceeds `o2`
            have hgt : ∀ x ∈ ((lookahead o2 (stackInsert
                (lookahead o (stackInsert st id enb) o rest).2.1 X enX) o2
                rest2).2.2.map (fun ev => ev.1.1)), o2 < x := by
              intro x hx
              obtain ⟨ev, hev, hevx⟩ := List.mem_map.mp hx
              rcases hrest2' : (lookahead o2 (stackInsert
                  (lookahead o (stackInsert st id enb) o rest).2.1 X enX) o2
                  rest2).2.2 with _ | ⟨rr2, rest3⟩
              · rw [hrest2'] at hev
                simp at hev
              · obtain ⟨_, _, hne2⟩ := lookahead_stop o2 _ o2 rest2 _ _ hrest2'
                obtain ⟨C2, hC2, _, _⟩ := lookahead_split o2 (stackInsert
                  (lookahead o (stackInsert st id enb) o rest).2.1 X enX) o2 rest2
                have hmem2 : ∀ q ∈ rr2 :: rest3, q ∈ rest2 := by
                  intro q hq
                  rw [hC2, hrest2']
                  exact List.mem_append_right _ hq
                have hge : ∀ q ∈ rr2 :: rest3, o2 ≤ q.1.1 := by
                  intro q hq
                  exact le_trans (le_refl o2) (keyLt_offset_le (hhead2 q (hmem2 q hq)))
                rw [hrest2'] at hev
                rcases List.mem_cons.mp hev with rfl | hev'
                · have := hge ev (by simp)
                  omega
                · have hsorted2 : RMap.SortedM (rr2 :: rest3) := by
                    rw [← hrest2']
                    rw [hC2] at htail2
                    exact htail2.sublist (List.sublist_append_right _ _)
                  have hge2 := keyLt_offset_le
                    ((List.pairwise_cons.mp hsorted2).1 ev hev')
                  have := hge rr2 (by simp)
                  have := hge ev (List.mem_cons_of_mem _ hev')
                  rcases Nat.lt_or_ge o2 rr2.1.1 with hgt2 | hge3
                  · omega
                  · have : rr2.1.1 = o2 := by omega
                    exact absurd this hne2
            intro heq
            exfalso
            have hbgt := hgt b.1 hstart
            have h0 : (lookahead o (stackInsert st id enb) o rest).1 = b.1 := heq
            rw [he] at h0
            have heq2 : o2 = b.1 := h0
            omega
          · -- second segment emitted: the stopping event flips its id's membership
            rw [sweepAux_cons_emit o2 X enX rest2 _ (by simpa using hemp2)] at hb
            simp only [List.head?_cons, Option.mem_def, Option.some.injEq] at hb
            subst hb
            intro _
            simp only
            have hflipX : X ∈ stackIds (stackInsert
                (lookahead o (stackInsert st id enb) o rest).2.1 X enX) ↔
                ¬ X ∈ stackIds (lookahead o (stackInsert st id enb) o rest).2.1 :=
              stackMaybe_false_flip _ X enX hwf' hstop
            have hpresX : X ∈ stackIds (lookahead o2 (stackInsert
                (lookahead o (stackInsert st id enb) o rest).2.1 X enX) o2
                rest2).2.1 ↔ X ∈ stackIds (stackInsert
                (lookahead o (stackInsert st id enb) o rest).2.1 X enX) :=
              lookahead_mem_preserved o2 _ o2 rest2 X hwf1' hjX
            intro heq
            have hiff := hpresX.trans hflipX
            rw [← heq] at hiff
            exact iff_not_self hiff

/-- C3 (amended): in the consolidated partition emitted by the `RangeMap`
iterator sweep, for every list of marks inserted into a scope, no two
consecutive entries whose ranges touch (the first entry's end equals the next
entry's start) carry equal label sets: the event that ends a segment always
flips the presence of its label.  The persisted sweep of `Markers::for_each`
does not have this property (see the counterexample). -/
theorem C3_maximality (marks : List Mark) : List.Chain' touchOk (sweepOut marks) := by
  unfold sweepOut
  exact sweepAux_chain_aux (buildMap marks).length _ _ le_rfl (buildMap_sorted marks)
    ⟨List.Pairwise.nil, fun p hp => absurd hp (List.not_mem_nil p)⟩

/-- C3 (counterexample): the persisted sweep of `Markers::for_each` violates
maximality.  Marking `(0..5, 1)`, `(0..7, 1)`, `(0..50, 2)`, `(51..53, 1)` into
an empty scope makes the sweep emit `(0..5, {1, 2})` followed by the touching
`(5..7, {1, 2})` with the identical label set — the finisher cuts a segment at
every boundary offset whether or not the label set changes there. -/
theorem C3_counterexample :
    ∃ st1 st2 st3 st4 : MStore,
      markersMark [] (0, 5) 1 = Except.ok st1 ∧
      markersMark st1 (0, 7) 1 = Except.ok st2 ∧
      markersMark st2 (0, 50) 2 = Except.ok st3 ∧
      markersMark st3 (51, 53) 1 = Except.ok st4 ∧
      markersForEach st4 =
        [(0, 5, [1, 2]), (5, 7, [1, 2]), (7, 50, [2]), (51, 53, [1])] ∧
      ¬ List.Chain' touchOk (markersForEach st4) := by
  refine ⟨_, _, _, _, rfl, rfl, rfl, rfl, by decide, ?_⟩
  intro hch
  have hch2 : List.Chain' touchOk
      [(0, 5, [1, 2]), (5, 7, [1, 2]), (7, 50, [2]), (51, 53, [1])] := hch
  have h1 := (List.chain'_cons.mp hch2).1
  exact h1 rfl rfl

/-! ## Counting the replayed stack (C6) -/

theorem lookupCount_foldl (p : List REntry) (s : RStack) (j : Nat) (hwf : StackWF s) :
    lookupCount (p.foldl (fun s ev => stackInsert s ev.1.2 ev.2) s) j =
      p.foldl (evStep j) (lookupCount s j) := by
  induction p generalizing s with
  | nil => rfl
  | cons ev tl ih =>
    rcases ev with ⟨⟨o, id⟩, en⟩
    rw [List.foldl_cons, List.foldl_cons, ih _ (stackInsert_wf _ _ _ hwf)]
    show tl.foldl (evStep j) (lookupCount (stackInsert s id en) j) = _
    by_cases hij : id = j
    · subst hij
      rw [lookupCount_stackInsert_self s id en hwf]
      simp only [evStep]
      rfl
    · rw [lookupCount_stackInsert_other s id en j (fun hh => hij hh.symm)]
      simp only [evStep]
      rw [if_neg hij]

theorem lookupCount_foldSt (p : List REntry) (j : Nat) :
    lookupCount (foldSt p) j = cnt p j := by
  unfold foldSt cnt
  rw [lookupCount_foldl p [] j ⟨List.Pairwise.nil, by simp⟩]
  rfl

theorem cnt_eq_bcnt_aux (p : List REntry) (j : Nat) : ∀ c : Nat,
    p.foldl (evStep j) c =
      bcnt c ((p.filter (fun ev => ev.1.2 = j)).map (fun ev => ev.2)) := by
  induction p with
  | nil => intro c; rfl
  | cons ev tl ih =>
    intro c
    rw [List.foldl_cons]
    by_cases hij : ev.1.2 = j
    · rw [List.filter_cons_of_pos (by simpa using hij), List.map_cons]
      show tl.foldl (evStep j) (evStep j c ev) = bcnt (bstep c ev.2) _
      rw [ih (evStep j c ev)]
      congr 1
      simp [evStep, bstep, hij]
    · rw [List.filter_cons_of_neg (by simpa using hij)]
      show tl.foldl (evStep j) (evStep j c ev) = _
      rw [show evStep j c ev = c by simp [evStep, hij]]
      exact ih c

theorem cnt_eq_bcnt (p : List REntry) (j : Nat) :
    cnt p j = bcnt 0 ((p.filter (fun ev => ev.1.2 = j)).map (fun ev => ev.2)) :=
  cnt_eq_bcnt_aux p j 0

theorem bcnt_eq (bl : List Bool) : ∀ c : Nat,
    (∀ k, (bl.take k).count false ≤ c + (bl.take k).count true) →
    bcnt c bl = c + bl.count true - bl.count false ∧
      bl.count false ≤ c + bl.count true := by
  induction bl with
  | nil =>
    intro c _
    simp [bcnt]
  | cons b tl ih =>
    intro c h
    cases b
    · -- close: c must be positive
      have hc : 1 ≤ c := by
        have := h 1
        simpa using this
      have h' : ∀ k, (tl.take k).count false ≤ (c - 1) + (tl.take k).count true := by
        intro k
        have := h (k + 1)
        simp only [List.take_succ_cons, List.count_cons] at this
        simp at this
        omega
      obtain ⟨h1, h2⟩ := ih (c - 1) h'
      constructor
      · show bcnt (bstep c false) tl = _
        rw [show bstep c false = c - 1 from rfl, h1]
        simp only [List.count_cons]
        simp
        omega
      · simp only [List.count_cons]
        simp
        omega
    · -- open
      have h' : ∀ k, (tl.take k).count false ≤ (c + 1) + (tl.take k).count true := by
        intro k
        have := h (k + 1)
        simp only [List.take_succ_cons, List.count_cons] at this
        simp at this
        omega
      obtain ⟨h1, h2⟩ := ih (c + 1) h'
      constructor
      · show bcnt (bstep c true) tl = _
        rw [show bstep c true = c + 1 from rfl, h1]
        simp only [List.count_cons]
        simp
        omega
      · simp only [List.count_cons]
        simp
        omega

/-! ## The event list as the contribution set (C6) -/

theorem countP_congr' {α : Type} (l : List α) (p q : α → Bool)
    (h : ∀ a ∈ l, p a = q a) : l.countP p = l.countP q := by
  induction l with
  | nil => rfl
  | cons a t ih =>
    rw [List.countP_cons, List.countP_cons, h a (by simp),
      ih (fun a ha => h a (List.mem_cons_of_mem _ ha))]

theorem lookupB_some_iff_mem (m : RMap) (k : RKey) (v : Bool) (hs : RMap.SortedM m) :
    RMap.lookupB m k = some v ↔ (k, v) ∈ m := by
  induction m with
  | nil => simp [RMap.lookupB]
  | cons a t ih =>
    rcases a with ⟨k', v'⟩
    obtain ⟨hhead, htail⟩ := List.pairwise_cons.mp hs
    simp only [RMap.lookupB]
    by_cases hk : k' = k
    · subst hk
      rw [if_pos rfl]
      constructor
      · intro hv
        exact List.mem_cons.mpr (Or.inl (by
          injection hv with hv
          rw [hv]))
      · intro hmem
        rcases List.mem_cons.mp hmem with heq | hmem'
        · injection heq with h1 h2
          rw [h2]
        · exact absurd (hhead (k', v) hmem') (keyLt_irrefl k')
    · rw [if_neg hk]
      rw [ih htail]
      constructor
      · intro h
        exact List.mem_cons_of_mem _ h
      · intro h
        rcases List.mem_cons.mp h with heq | h'
        · exfalso
          apply hk
          injection heq with h1 _
          rw [h1]
        · exact h'

theorem mem_contribVals_iff (marks : List Mark) (k : RKey) (v : Bool) :
    v ∈ contribVals marks k ↔ (k, v) ∈ contributions marks := by
  unfold contribVals
  rw [List.mem_filterMap]
  constructor
  · rintro ⟨c, hc, hcv⟩
    by_cases hck : c.1 = k
    · rw [if_pos hck] at hcv
      injection hcv with hcv
      have : c = (k, v) := by
        rcases c with ⟨ck, cv⟩
        simp only at hck hcv
        rw [hck, hcv]
      rw [← this]
      exact hc
    · rw [if_neg hck] at hcv
      exact absurd hcv (Option.noConfusion)
  · intro h
    exact ⟨(k, v), h, by simp⟩

theorem mem_buildMap_iff (marks : List Mark) (hnc : noCoincidence marks)
    (k : RKey) (v : Bool) :
    ((k, v) ∈ buildMap marks ↔ (k, v) ∈ contributions marks) := by
  rw [← lookupB_some_iff_mem _ _ _ (buildMap_sorted marks), lookupB_buildMap,
    ← mem_contribVals_iff]
  have hlen : (contribVals marks k).length ≤ 1 :=
    filterMap_key_len_le (contributions marks) k hnc
  rcases hv : contribVals marks k with _ | ⟨w, tl⟩
  · simp
  · rw [hv] at hlen
    simp only [List.length_cons] at hlen
    have htl : tl = [] := List.eq_nil_of_length_eq_zero (by omega)
    subst htl
    show cancelStep none w = some v ↔ v ∈ [w]
    simp [cancelStep, eq_comm]

theorem buildMap_nodup (marks : List Mark) : (buildMap marks).Nodup := by
  have := buildMap_sorted marks
  unfold RMap.SortedM at this
  exact this.imp (fun {a b} h => by
    intro heq
    rw [heq] at h
    exact keyLt_irrefl _ h)

theorem contributions_nodup (marks : List Mark) (hnc : noCoincidence marks) :
    (contributions marks).Nodup :=
  List.Nodup.of_map _ hnc

theorem buildMap_perm_contributions (marks : List Mark) (hnc : noCoincidence marks) :
    (buildMap marks).Perm (contributions marks) :=
  (List.perm_ext_iff_of_nodup (buildMap_nodup marks)
    (contributions_nodup marks hnc)).mpr (fun a => by
      rcases a with ⟨k, v⟩
      exact mem_buildMap_iff marks hnc k v)

theorem contributions_cons (mk : Mark) (tl : List Mark) :
    contributions (mk :: tl) = contrib mk ++ contributions tl := by
  simp [contributions]

theorem countP_contributions_pol (marks : List Mark) (id : Nat) (b : Bool)
    (q : Nat → Prop) [DecidablePred q] :
    (contributions marks).countP
        (fun ev => decide (ev.1.2 = id ∧ ev.2 = b ∧ q ev.1.1)) =
      marks.countP (fun mk => decide (mk.1.1 < mk.1.2 ∧ mk.2 = id ∧
        q (if b then mk.1.1 else mk.1.2))) := by
  induction marks with
  | nil => rfl
  | cons mk tl ih =>
    rw [contributions_cons, List.countP_append, ih, List.countP_cons]
    have hmk : (contrib mk).countP
        (fun ev => decide (ev.1.2 = id ∧ ev.2 = b ∧ q ev.1.1)) =
        if decide (mk.1.1 < mk.1.2 ∧ mk.2 = id ∧
          q (if b then mk.1.1 else mk.1.2)) = true then 1 else 0 := by
      rcases mk with ⟨⟨s, e⟩, mid⟩
      unfold contrib
      by_cases hv : s < e
      · rw [if_pos hv]
        cases b <;>
          simp only [List.countP_cons, List.countP_nil, decide_eq_true_eq] <;>
          split_ifs <;> simp_all
      · rw [if_neg hv]
        have hns : ¬ (s < e ∧ mid = id ∧ q (if b = true then s else e)) :=
          fun hh => hv hh.1
        simp [hns]
    omega

theorem marks_count_split (marks : List Mark) (id x : Nat) :
    marks.countP (fun mk => decide (mk.1.1 < mk.1.2 ∧ mk.2 = id ∧ mk.1.1 ≤ x)) =
      marks.countP (fun mk => decide (mk.1.1 < mk.1.2 ∧ mk.2 = id ∧ mk.1.2 ≤ x)) +
        marks.countP (fun mk => decide (mk.2 = id ∧ mk.1.1 ≤ x ∧ x < mk.1.2)) := by
  induction marks with
  | nil => rfl
  | cons mk tl ih =>
    simp only [List.countP_cons]
    rw [ih]
    rcases mk with ⟨⟨s, e⟩, mid⟩
    simp only [decide_eq_true_eq]
    split_ifs <;> omega

theorem filter_offsets_strict (evs : List REntry) (hs : RMap.SortedM evs)
    (id x : Nat) :
    ((filterLE evs x).filter (fun ev => ev.1.2 = id)).Pairwise
      (fun a b => a.1.1 < b.1.1) := by
  have hsub : ((filterLE evs x).filter (fun ev => ev.1.2 = id)).Sublist evs :=
    ((List.filter_sublist _).trans (List.filter_sublist _))
  have hsorted : RMap.SortedM ((filterLE evs x).filter (fun ev => ev.1.2 = id)) :=
    hs.sublist hsub
  refine List.Pairwise.imp_of_mem ?_ hsorted
  intro a b ha hb hab
  have ha' : a.1.2 = id := by
    have := List.of_mem_filter ha
    simpa using this
  have hb' : b.1.2 = id := by
    have := List.of_mem_filter hb
    simpa using this
  rcases hab with h | ⟨_, h⟩
  · exact h
  · omega

theorem take_eq_filter_le (L : List REntry)
    (hinc : L.Pairwise (fun a b => a.1.1 < b.1.1)) :
    ∀ k, 1 ≤ k → k ≤ L.length →
      ∃ y, L.take k = L.filter (fun ev => decide (ev.1.1 ≤ y)) ∧
        y ∈ (L.take k).map (fun ev => ev.1.1) := by
  induction L with
  | nil =>
    intro k h1 h2
    simp at h2
    omega
  | cons ev tl ih =>
    intro k h1 h2
    obtain ⟨hhead, htail⟩ := List.pairwise_cons.mp hinc
    match k, h1 with
    | 1, _ =>
      refine ⟨ev.1.1, ?_, by simp⟩
      rw [List.take_one]
      simp only [List.head?_cons, Option.toList_some]
      rw [List.filter_cons_of_pos (by simp)]
      have : tl.filter (fun e2 => decide (e2.1.1 ≤ ev.1.1)) = [] := by
        apply List.filter_eq_nil.mpr
        intro a ha
        have := hhead a ha
        simp
        omega
      rw [this]
    | (j + 2), _ =>
      have hj1 : 1 ≤ j + 1 := by omega
      have hj2 : j + 1 ≤ tl.length := by
        simp only [List.length_cons] at h2
        omega
      obtain ⟨y, hy, hymem⟩ := ih htail (j + 1) hj1 hj2
      have hevy : ev.1.1 ≤ y := by
        obtain ⟨a, ha, hay⟩ := List.mem_map.mp hymem
        have := hhead a (List.mem_of_mem_take ha)
        omega
      refine ⟨y, ?_, ?_⟩
      · rw [List.take_succ_cons]
        rw [List.filter_cons_of_pos (by simpa using hevy), hy]
      · rw [List.take_succ_cons, List.map_cons]
        exact List.mem_cons_of_mem _ hymem

theorem cut_count (marks : List Mark) (hnc : noCoincidence marks) (b : Bool)
    (x y id : Nat) :
    (((filterLE (buildMap marks) x).filter (fun ev => ev.1.2 = id)).filter
        (fun ev => decide (ev.1.1 ≤ y))).countP (fun ev => ev.2 == b) =
      marks.countP (fun mk => decide (mk.1.1 < mk.1.2 ∧ mk.2 = id ∧
        ((if b then mk.1.1 else mk.1.2) ≤ x ∧ (if b then mk.1.1 else mk.1.2) ≤ y))) := by
  unfold filterLE
  rw [List.countP_filter, List.countP_filter, List.countP_filter]
  rw [countP_congr' _ _
    (fun ev => decide (ev.1.2 = id ∧ ev.2 = b ∧ (ev.1.1 ≤ x ∧ ev.1.1 ≤ y)))
    ?_]
  · rw [(buildMap_perm_contributions marks hnc).countP_eq]
    exact countP_contributions_pol marks id b (fun o => o ≤ x ∧ o ≤ y)
  · intro a _
    rcases a with ⟨⟨o, i⟩, pol⟩
    by_cases h1 : i = id <;> by_cases h2 : o ≤ x <;> by_cases h3 : o ≤ y <;>
      cases pol <;> cases b <;> simp [h1, h2, h3]

theorem cut_count_le (marks : List Mark) (hnc : noCoincidence marks)
    (x y id : Nat) :
    (((filterLE (buildMap marks) x).filter (fun ev => ev.1.2 = id)).filter
        (fun ev => decide (ev.1.1 ≤ y))).countP (fun ev => ev.2 == false) ≤
      (((filterLE (buildMap marks) x).filter (fun ev => ev.1.2 = id)).filter
        (fun ev => decide (ev.1.1 ≤ y))).countP (fun ev => ev.2 == true) := by
  rw [cut_count marks hnc false x y id, cut_count marks hnc true x y id]
  apply List.countP_mono_left
  intro mk _ h
  simp only [decide_eq_true_eq, Bool.false_eq_true, if_false, if_true] at h ⊢
  obtain ⟨hv, hid, hxy⟩ := h
  exact ⟨hv, hid, by omega, by omega⟩

theorem cnt_filterLE (marks : List Mark) (hnc : noCoincidence marks) (x id : Nat) :
    cnt (filterLE (buildMap marks) x) id =
      marks.countP (fun mk => decide (mk.2 = id ∧ mk.1.1 ≤ x ∧ x < mk.1.2)) := by
  rw [cnt_eq_bcnt]
  have hstrict := filter_offsets_strict (buildMap marks) (buildMap_sorted marks) id x
  have hself : ((filterLE (buildMap marks) x).filter (fun ev => ev.1.2 = id)) =
      ((filterLE (buildMap marks) x).filter (fun ev => ev.1.2 = id)).filter
        (fun ev => decide (ev.1.1 ≤ x)) := by
    symm
    apply List.filter_eq_self.mpr
    intro a ha
    have ha2 : a ∈ filterLE (buildMap marks) x := List.mem_of_mem_filter ha
    unfold filterLE at ha2
    exact (List.mem_filter.mp ha2).2
  have hH : ∀ k, ((((filterLE (buildMap marks) x).filter
        (fun ev => ev.1.2 = id)).map (fun ev => ev.2)).take k).count false ≤
      0 + ((((filterLE (buildMap marks) x).filter
        (fun ev => ev.1.2 = id)).map (fun ev => ev.2)).take k).count true := by
    intro k
    rw [Nat.zero_add]
    rw [← List.map_take]
    rw [List.count_eq_countP, List.count_eq_countP, List.countP_map, List.countP_map]
    by_cases hk0 : k = 0
    · simp [hk0]
    · by_cases hklen : k ≤ ((filterLE (buildMap marks) x).filter
          (fun ev => ev.1.2 = id)).length
      · obtain ⟨y, hy, _⟩ := take_eq_filter_le _ hstrict k (by omega) hklen
        rw [hy]
        have := cut_count_le marks hnc x y id
        convert this using 2
      · rw [List.take_all_of_le (by omega)]
        rw [hself]
        have := cut_count_le marks hnc x x id
        convert this using 2
  obtain ⟨hval, hle⟩ := bcnt_eq _ 0 hH
  rw [hval]
  have hT : ((((filterLE (buildMap marks) x).filter
        (fun ev => ev.1.2 = id)).map (fun ev => ev.2))).count true =
      marks.countP (fun mk => decide (mk.1.1 < mk.1.2 ∧ mk.2 = id ∧ mk.1.1 ≤ x)) := by
    rw [List.count_eq_countP, List.countP_map, hself]
    simp only [Function.comp_def]
    rw [cut_count marks hnc true x x id]
    apply countP_congr'
    intro a _
    simp
  have hF : ((((filterLE (buildMap marks) x).filter
        (fun ev => ev.1.2 = id)).map (fun ev => ev.2))).count false =
      marks.countP (fun mk => decide (mk.1.1 < mk.1.2 ∧ mk.2 = id ∧ mk.1.2 ≤ x)) := by
    rw [List.count_eq_countP, List.countP_map, hself]
    simp only [Function.comp_def]
    rw [cut_count marks hnc false x x id]
    apply countP_congr'
    intro a _
    simp
  rw [hT, hF] at hle ⊢
  have hsplit := marks_count_split marks id x
  omega

/-! ## Coverage of a position against the replayed stack (C6) -/

theorem foldSt_wf (p : List REntry) : StackWF (foldSt p) :=
  foldl_stackInsert_wf p [] ⟨List.Pairwise.nil, by simp⟩

theorem mem_foldSt_filterLE (marks : List Mark) (hnc : noCoincidence marks)
    (x id : Nat) :
    id ∈ stackIds (foldSt (filterLE (buildMap marks) x)) ↔
      ∃ mk ∈ marks, mk.2 = id ∧ mk.1.1 ≤ x ∧ x < mk.1.2 := by
  rw [mem_stackIds_iff _ _ (foldSt_wf _), lookupCount_foldSt,
    cnt_filterLE marks hnc x id]
  constructor
  · intro h
    obtain ⟨mk, hmk, hp⟩ := List.countP_pos_iff.mp (Nat.pos_of_ne_zero h)
    simp only [decide_eq_true_eq] at hp
    exact ⟨mk, hmk, hp⟩
  · rintro ⟨mk, hmk, hp⟩
    have : 0 < marks.countP
        (fun mk => decide (mk.2 = id ∧ mk.1.1 ≤ x ∧ x < mk.1.2)) :=
      List.countP_pos_iff.mpr ⟨mk, hmk, by simpa using hp⟩
    omega

theorem cut_ne_nil_iff_coveredIn (marks : List Mark) (hnc : noCoincidence marks)
    (x : Nat) :
    stackIds (foldSt (filterLE (buildMap marks) x)) ≠ [] ↔ coveredIn marks x := by
  constructor
  · intro h
    obtain ⟨id, hid⟩ := List.exists_mem_of_ne_nil _ h
    obtain ⟨mk, hmk, _, h1, h2⟩ := (mem_foldSt_filterLE marks hnc x id).mp hid
    exact ⟨mk, hmk, h1, h2⟩
  · rintro ⟨mk, hmk, h1, h2⟩
    have : mk.2 ∈ stackIds (foldSt (filterLE (buildMap marks) x)) :=
      (mem_foldSt_filterLE marks hnc x mk.2).mpr ⟨mk, hmk, rfl, h1, h2⟩
    exact List.ne_nil_of_mem this

theorem maxOffset_ge (evs : List REntry) : ∀ ev ∈ evs, ev.1.1 ≤ maxOffset evs := by
  intro ev hev
  unfold maxOffset
  induction evs with
  | nil => simp at hev
  | cons a t ih =>
    rcases List.mem_cons.mp hev with rfl | h
    · simp only [List.map_cons, List.foldr_cons]
      exact Nat.le_max_left _ _
    · simp only [List.map_cons, List.foldr_cons]
      exact le_trans (ih h) (Nat.le_max_right _ _)

theorem close_mem_contributions (marks : List Mark) (mk : Mark) (hmk : mk ∈ marks)
    (hv : mk.1.1 < mk.1.2) : ((mk.1.2, mk.2), false) ∈ contributions marks := by
  unfold contributions
  rw [List.mem_flatten]
  exact ⟨contrib mk, List.mem_map_of_mem _ hmk, by simp [contrib, hv]⟩

theorem foldSt_buildMap_nil (marks : List Mark) (hnc : noCoincidence marks) :
    stackIds (foldSt (buildMap marks)) = [] := by
  by_contra h
  have hfl : filterLE (buildMap marks) (maxOffset (buildMap marks)) =
      buildMap marks := by
    unfold filterLE
    apply List.filter_eq_self.mpr
    intro a ha
    simpa using maxOffset_ge _ a ha
  rw [← hfl] at h
  obtain ⟨mk, hmk, h1, h2⟩ :=
    (cut_ne_nil_iff_coveredIn marks hnc (maxOffset (buildMap marks))).mp h
  have hclose : ((mk.1.2, mk.2), false) ∈ buildMap marks :=
    ((buildMap_perm_contributions marks hnc).mem_iff).mpr
      (close_mem_contributions marks mk hmk (by omega))
  have := maxOffset_ge (buildMap marks) _ hclose
  simp only at this
  omega

theorem sorted_filter_split (l : List REntry)
    (hs : l.Pairwise (fun a b => keyLt a.1 b.1)) (x : Nat) :
    l = l.filter (fun ev => ev.1.1 ≤ x) ++ l.filter (fun ev => x < ev.1.1) := by
  induction l with
  | nil => rfl
  | cons a t ih =>
    obtain ⟨hhead, htail⟩ := List.pairwise_cons.mp hs
    by_cases ha : a.1.1 ≤ x
    · rw [List.filter_cons_of_pos (by simpa using ha),
        List.filter_cons_of_neg (by simpa using ha)]
      rw [List.cons_append]
      exact congrArg _ (ih htail)
    · rw [List.filter_cons_of_neg (by simpa using ha),
        List.filter_cons_of_pos (by simpa using ha)]
      have h1 : t.filter (fun ev => decide (ev.1.1 ≤ x)) = [] := by
        apply List.filter_eq_nil_iff.mpr
        intro b hb
        have := hhead b hb
        rcases this with hlt | ⟨heq, _⟩ <;> simp <;> omega
      have h2 : t.filter (fun ev => decide (x < ev.1.1)) = t := by
        apply List.filter_eq_self.mpr
        intro b hb
        have := hhead b hb
        rcases this with hlt | ⟨heq, _⟩ <;> simp <;> omega
      rw [h1, h2]
      rfl

theorem seg_cut (P : List REntry) (o id : Nat) (en : Bool) (rest : List REntry) (x : Nat)
    (hs : RMap.SortedM (P ++ ((o, id), en) :: rest))
    (ho : o ≤ x)
    (hrest : ∀ ev ∈ (lookahead o (stackInsert (foldSt P) id en) o rest).2.2,
      x < ev.1.1) :
    stackIds (foldSt (filterLE (P ++ ((o, id), en) :: rest) x)) =
      stackIds (lookahead o (stackInsert (foldSt P) id en) o rest).2.1 := by
  obtain ⟨C, hC1, hC2, hC3⟩ :=
    lookahead_split o (stackInsert (foldSt P) id en) o rest
  unfold RMap.SortedM at hs
  rw [List.pairwise_append] at hs
  obtain ⟨hPpw, hconspw, hPlt⟩ := hs
  obtain ⟨hhd, hrestpw⟩ := List.pairwise_cons.mp hconspw
  have hPle : ∀ ev ∈ P, ev.1.1 ≤ x := by
    intro ev hev
    have := hPlt ev hev (((o, id), en)) (by simp)
    simp only [keyLt] at this
    rcases this with h | ⟨h, _⟩ <;> omega
  have hCpw : C.Pairwise (fun a b => keyLt a.1 b.1) := by
    rw [hC1, List.pairwise_append] at hrestpw
    exact hrestpw.1
  have hcut : filterLE (P ++ ((o, id), en) :: rest) x =
      P ++ ((o, id), en) :: C.filter (fun ev => ev.1.1 ≤ x) := by
    unfold filterLE
    rw [List.filter_append]
    rw [List.filter_cons_of_pos (by simpa using ho)]
    rw [List.filter_eq_self.mpr (fun a ha => by simpa using hPle a ha)]
    rw [hC1, List.filter_append]
    have hnil : (lookahead o (stackInsert (foldSt P) id en) o rest).2.2.filter
        (fun ev => ev.1.1 ≤ x) = [] := by
      apply List.filter_eq_nil_iff.mpr
      intro a ha
      have := hrest a ha
      simp
      omega
    rw [hnil, List.append_nil]
  rw [hcut]
  have hfold : foldSt (P ++ ((o, id), en) :: C.filter (fun ev => ev.1.1 ≤ x)) =
      (C.filter (fun ev => ev.1.1 ≤ x)).foldl
        (fun s ev => stackInsert s ev.1.2 ev.2) (stackInsert (foldSt P) id en) := by
    unfold foldSt
    rw [List.foldl_append, List.foldl_cons]
  rw [hfold]
  apply hC3
  · exact sorted_filter_split C hCpw x
  · intro ev hev
    have := List.of_mem_filter hev
    simp only [decide_eq_true_eq] at this
    omega

theorem sweepAux_ids_nonempty (n : Nat) : ∀ (l : List REntry) (st : RStack),
    l.length ≤ n → ∀ sen ∈ (sweepAux l st).1, sen.2.2 ≠ [] := by
  induction n with
  | zero =>
    intro l st hlen sen hsen
    rw [List.length_eq_zero.mp (Nat.le_zero.mp hlen), sweepAux_nil] at hsen
    simp at hsen
  | succ n ih =>
    intro l st hlen sen hsen
    match l with
    | [] =>
      rw [sweepAux_nil] at hsen
      simp at hsen
    | ⟨⟨o, id⟩, enb⟩ :: rest =>
      have hlen' : (lookahead o (stackInsert st id enb) o rest).2.2.length ≤ n := by
        have := lookahead_length_le o (stackInsert st id enb) o rest
        simp only [List.length_cons] at hlen
        omega
      by_cases hemp : stackIsEmpty (lookahead o (stackInsert st id enb) o rest).2.1
      · rw [sweepAux_cons_skip o id enb rest st hemp] at hsen
        exact ih _ _ hlen' sen hsen
      · rw [sweepAux_cons_emit o id enb rest st (by simpa using hemp)] at hsen
        rcases List.mem_cons.mp hsen with rfl | hsen'
        · intro hnil
          apply hemp
          simp only [stackIds] at hnil
          have hn : (lookahead o (stackInsert st id enb) o rest).2.1 = [] := by
            simpa using hnil
          simp [stackIsEmpty, hn]
        · exact ih _ _ hlen' sen hsen'

theorem sweep_cover_sound_aux (n : Nat) : ∀ (evs P : List REntry),
    evs.length ≤ n → RMap.SortedM (P ++ evs) →
    ∀ sen ∈ (sweepAux evs (foldSt P)).1, ∀ x, sen.1 ≤ x → x < sen.2.1 →
      stackIds (foldSt (filterLE (P ++ evs) x)) = sen.2.2 := by
  induction n with
  | zero =>
    intro evs P hlen _ sen hsen x _ _
    rw [List.length_eq_zero.mp (Nat.le_zero.mp hlen), sweepAux_nil] at hsen
    simp at hsen
  | succ n ih =>
    intro evs P hlen hs sen hsen x hx1 hx2
    match evs with
    | [] =>
      rw [sweepAux_nil] at hsen
      simp at hsen
    | ⟨⟨o, id⟩, enb⟩ :: rest =>
      obtain ⟨C, hC1, hC2, hC3⟩ :=
        lookahead_split o (stackInsert (foldSt P) id enb) o rest
      have hlen' : (lookahead o (stackInsert (foldSt P) id enb) o rest).2.2.length
          ≤ n := by
        have := lookahead_length_le o (stackInsert (foldSt P) id enb) o rest
        simp only [List.length_cons] at hlen
        omega
      have hPeq : (P ++ ((o, id), enb) :: C) ++
          (lookahead o (stackInsert (foldSt P) id enb) o rest).2.2 =
          P ++ ((o, id), enb) :: rest := by
        rw [List.append_assoc, List.cons_append, ← hC1]
      have hfold' : foldSt (P ++ ((o, id), enb) :: C) =
          (lookahead o (stackInsert (foldSt P) id enb) o rest).2.1 := by
        rw [hC2]
        unfold foldSt
        rw [List.foldl_append, List.foldl_cons]
      have hs' : RMap.SortedM ((P ++ ((o, id), enb) :: C) ++
          (lookahead o (stackInsert (foldSt P) id enb) o rest).2.2) := by
        rw [hPeq]; exact hs
      have hrec : ∀ sen2 ∈ (sweepAux
            (lookahead o (stackInsert (foldSt P) id enb) o rest).2.2
            (lookahead o (stackInsert (foldSt P) id enb) o rest).2.1).1,
          ∀ x2, sen2.1 ≤ x2 → x2 < sen2.2.1 →
          stackIds (foldSt (filterLE (P ++ ((o, id), enb) :: rest) x2)) = sen2.2.2 := by
        intro sen2 hsen2 x2 hxa hxb
        rw [← hPeq]
        rw [← hfold'] at hsen2
        exact ih _ _ hlen' hs' sen2 hsen2 x2 hxa hxb
      by_cases hemp : stackIsEmpty
          (lookahead o (stackInsert (foldSt P) id enb) o rest).2.1
      · rw [sweepAux_cons_skip o id enb rest (foldSt P) hemp] at hsen
        exact hrec sen hsen x hx1 hx2
      · rw [sweepAux_cons_emit o id enb rest (foldSt P) (by simpa using hemp)] at hsen
        rcases List.mem_cons.mp hsen with rfl | hsen'
        · apply seg_cut P o id enb rest x hs hx1
          intro ev hev
          rcases hr : (lookahead o (stackInsert (foldSt P) id enb) o rest).2.2 with
            _ | ⟨stp, tail⟩
          · rw [hr] at hev
            simp at hev
          · rw [hr] at hev
            obtain ⟨he, _, _⟩ :=
              lookahead_stop o (stackInsert (foldSt P) id enb) o rest stp tail hr
            have hxstp : x < stp.1.1 := by
              have h0 : x < (lookahead o (stackInsert (foldSt P) id enb) o rest).1 :=
                hx2
              rw [he] at h0
              exact h0
            have hrpw : RMap.SortedM (stp :: tail) := by
              have h1 : RMap.SortedM rest := by
                refine hs.sublist ?_
                exact (List.sublist_cons_self _ _).trans (List.sublist_append_right _ _)
              rw [← hr]
              rw [hC1] at h1
              exact h1.sublist (List.sublist_append_right _ _)
            obtain ⟨hstp, _⟩ := List.pairwise_cons.mp hrpw
            rcases List.mem_cons.mp hev with rfl | hev'
            · exact hxstp
            · have := keyLt_offset_le (hstp ev hev')
              omega
        · exact hrec sen hsen' x hx1 hx2

theorem sweep_cover_complete_aux (n : Nat) : ∀ (evs P : List REntry) (x : Nat),
    evs.length ≤ n → RMap.SortedM (P ++ evs) →
    (∀ ev ∈ P, ev.1.1 ≤ x) →
    (∀ hd2, evs.head? = some hd2 → hd2.1.1 ≤ x) →
    stackIds (foldSt (filterLE (P ++ evs) x)) ≠ [] →
    stackIds (foldSt (P ++ evs)) = [] →
    ∃ sen ∈ (sweepAux evs (foldSt P)).1, sen.1 ≤ x ∧ x < sen.2.1 := by
  induction n with
  | zero =>
    intro evs P x hlen _ hP _ hne hfin
    rw [List.length_eq_zero.mp (Nat.le_zero.mp hlen)] at hne hfin
    rw [List.append_nil] at hne hfin
    have hfl : filterLE P x = P :=
      List.filter_eq_self.mpr (fun a ha => by simpa using hP a ha)
    rw [hfl] at hne
    exact absurd hfin hne
  | succ n ih =>
    intro evs P x hlen hs hP hhead hne hfin
    match evs with
    | [] =>
      rw [List.append_nil] at hne hfin
      have hfl : filterLE P x = P :=
        List.filter_eq_self.mpr (fun a ha => by simpa using hP a ha)
      rw [hfl] at hne
      exact absurd hfin hne
    | ⟨⟨o, id⟩, enb⟩ :: rest =>
      have ho : o ≤ x := hhead ((o, id), enb) rfl
      obtain ⟨C, hC1, hC2, hC3⟩ :=
        lookahead_split o (stackInsert (foldSt P) id enb) o rest
      have hlen' : (lookahead o (stackInsert (foldSt P) id enb) o rest).2.2.length
          ≤ n := by
        have := lookahead_length_le o (stackInsert (foldSt P) id enb) o rest
        simp only [List.length_cons] at hlen
        omega
      have hPeq : (P ++ ((o, id), enb) :: C) ++
          (lookahead o (stackInsert (foldSt P) id enb) o rest).2.2 =
          P ++ ((o, id), enb) :: rest := by
        rw [List.append_assoc, List.cons_append, ← hC1]
      have hfold' : foldSt (P ++ ((o, id), enb) :: C) =
          (lookahead o (stackInsert (foldSt P) id enb) o rest).2.1 := by
        rw [hC2]
        unfold foldSt
        rw [List.foldl_append, List.foldl_cons]
      have hs' : RMap.SortedM ((P ++ ((o, id), enb) :: C) ++
          (lookahead o (stackInsert (foldSt P) id enb) o rest).2.2) := by
        rw [hPeq]; exact hs
      have hrest_pw : RMap.SortedM rest := by
        refine hs.sublist ?_
        exact (List.sublist_cons_self _ _).trans (List.sublist_append_right _ _)
      have hrest_pw' := hrest_pw
      unfold RMap.SortedM at hrest_pw'
      rw [hC1, List.pairwise_append] at hrest_pw'
      obtain ⟨hCpw, hLpw, hCL⟩ := hrest_pw'
      rcases hr : (lookahead o (stackInsert (foldSt P) id enb) o rest).2.2 with
        _ | ⟨stp, tail⟩
      · -- the look-ahead consumed everything: the final stack is this segment's
        exfalso
        have hrestgt : ∀ ev ∈
            (lookahead o (stackInsert (foldSt P) id enb) o rest).2.2,
            x < ev.1.1 := by
          rw [hr]
          intro ev hev
          simp at hev
        have hseg := seg_cut P o id enb rest x hs ho hrestgt
        rw [hseg] at hne
        rw [← hPeq, hr, List.append_nil] at hfin
        rw [hfold'] at hfin
        exact hne hfin
      · by_cases hstp : stp.1.1 ≤ x
        · -- the segment ends at or before x: recurse past it
          have hCle : ∀ ev ∈ P ++ ((o, id), enb) :: C, ev.1.1 ≤ x := by
            intro ev hev
            rcases List.mem_append.mp hev with h | h
            · exact hP ev h
            · rcases List.mem_cons.mp h with rfl | h'
              · exact ho
              · have := keyLt_offset_le (hCL ev h' stp (by rw [hr]; simp))
                omega
          have hhead' : ∀ hd2,
              (lookahead o (stackInsert (foldSt P) id enb) o rest).2.2.head? =
                some hd2 → hd2.1.1 ≤ x := by
            intro hd2 hh
            rw [hr] at hh
            injection hh with hh2
            rw [← hh2]
            exact hstp
          have hne' : stackIds (foldSt (filterLE ((P ++ ((o, id), enb) :: C) ++
              (lookahead o (stackInsert (foldSt P) id enb) o rest).2.2) x)) ≠ [] := by
            rw [hPeq]; exact hne
          have hfin' : stackIds (foldSt ((P ++ ((o, id), enb) :: C) ++
              (lookahead o (stackInsert (foldSt P) id enb) o rest).2.2)) = [] := by
            rw [hPeq]; exact hfin
          obtain ⟨sen, hsen, hb1, hb2⟩ :=
            ih _ _ x hlen' hs' hCle hhead' hne' hfin'
          rw [hfold'] at hsen
          by_cases hemp : stackIsEmpty
              (lookahead o (stackInsert (foldSt P) id enb) o rest).2.1
          · rw [sweepAux_cons_skip o id enb rest (foldSt P) hemp]
            exact ⟨sen, hsen, hb1, hb2⟩
          · rw [sweepAux_cons_emit o id enb rest (foldSt P) (by simpa using hemp)]
            exact ⟨sen, List.mem_cons_of_mem _ hsen, hb1, hb2⟩
        · -- x lies inside this segment: the emitted head covers it
          have hrpw : RMap.SortedM (stp :: tail) := by
            rw [← hr]
            exact hLpw
          obtain ⟨hstppw, _⟩ := List.pairwise_cons.mp hrpw
          have hrestgt : ∀ ev ∈
              (lookahead o (stackInsert (foldSt P) id enb) o rest).2.2,
              x < ev.1.1 := by
            rw [hr]
            intro ev hev
            rcases List.mem_cons.mp hev with rfl | hev'
            · omega
            · have := keyLt_offset_le (hstppw ev hev')
              omega
          have hseg := seg_cut P o id enb rest x hs ho hrestgt
          rw [hseg] at hne
          have hemp : ¬ stackIsEmpty
              (lookahead o (stackInsert (foldSt P) id enb) o rest).2.1 = true := by
            intro hh
            apply hne
            have : (lookahead o (stackInsert (foldSt P) id enb) o rest).2.1 = [] := by
              simpa [stackIsEmpty] using hh
            rw [this]
            rfl
          rw [sweepAux_cons_emit o id enb rest (foldSt P) (by simpa using hemp)]
          obtain ⟨he, _, _⟩ :=
            lookahead_stop o (stackInsert (foldSt P) id enb) o rest stp tail hr
          refine ⟨_, List.mem_cons_self _ _, ho, ?_⟩
          show x < (lookahead o (stackInsert (foldSt P) id enb) o rest).1
          rw [he]
          omega

/-- C6 (amended): for every multiset of marks in which no two boundary
contributions land on the same `(offset, label)` point (the coincidence-free
condition of spec §4.2), a position lies in the union of the ranges of the
emitted partition entries exactly when it lies in the union of the ranges of
the inserted marks. -/
theorem C6_coverage_amended (marks : List Mark) (hnc : noCoincidence marks)
    (x : Nat) : coveredOut (sweepOut marks) x ↔ coveredIn marks x := by
  have hs : RMap.SortedM (([] : List REntry) ++ buildMap marks) := by
    rw [List.nil_append]
    exact buildMap_sorted marks
  have hout : sweepOut marks = (sweepAux (buildMap marks) (foldSt [])).1 := rfl
  constructor
  · rintro ⟨sen, hsen, h1, h2⟩
    rw [hout] at hsen
    have hcut := sweep_cover_sound_aux (buildMap marks).length (buildMap marks) []
      le_rfl hs sen hsen x h1 h2
    rw [List.nil_append] at hcut
    have hnn : sen.2.2 ≠ [] :=
      sweepAux_ids_nonempty (buildMap marks).length (buildMap marks) (foldSt [])
        le_rfl sen hsen
    rw [← hcut] at hnn
    exact (cut_ne_nil_iff_coveredIn marks hnc x).mp hnn
  · intro hcov
    have hne : stackIds (foldSt (filterLE (buildMap marks) x)) ≠ [] :=
      (cut_ne_nil_iff_coveredIn marks hnc x).mpr hcov
    have hfin : stackIds (foldSt (([] : List REntry) ++ buildMap marks)) = [] := by
      rw [List.nil_append]
      exact foldSt_buildMap_nil marks hnc
    have hne' : stackIds (foldSt (filterLE (([] : List REntry) ++
        buildMap marks) x)) ≠ [] := by
      rw [List.nil_append]
      exact hne
    have hhead : ∀ hd2, (buildMap marks).head? = some hd2 → hd2.1.1 ≤ x := by
      intro hd2 hh
      by_contra hgt
      apply hne
      rcases hbm : buildMap marks with _ | ⟨h0, t⟩
      · rw [hbm] at hh
        simp at hh
      · rw [hbm] at hh
        injection hh with hh2
        have hsort := buildMap_sorted marks
        rw [hbm] at hsort
        unfold RMap.SortedM at hsort
        obtain ⟨hhd0, _⟩ := List.pairwise_cons.mp hsort
        have hflt : filterLE (h0 :: t) x = [] := by
          unfold filterLE
          apply List.filter_eq_nil_iff.mpr
          intro a ha
          rcases List.mem_cons.mp ha with rfl | ha'
          · rw [← hh2] at hgt
            simp
            omega
          · have := keyLt_offset_le (hhd0 a ha')
            rw [← hh2] at hgt
            simp
            omega
        rw [hflt]
        rfl
    obtain ⟨sen, hsen, hb1, hb2⟩ := sweep_cover_complete_aux
      (buildMap marks).length (buildMap marks) [] x le_rfl hs
      (fun ev hev => absurd hev (List.not_mem_nil ev)) hhead hne' hfin
    refine ⟨sen, ?_, hb1, hb2⟩
    rw [hout]
    exact hsen

/-- C6 witness: the coincidence-free marks `[(0..6, L0), (2..4, L1)]` at
position 3 are covered on both sides. -/
theorem C6_coverage_amended_witness :
    noCoincidence [((0, 6), 0), ((2, 4), 1)] ∧
      (coveredOut (sweepOut [((0, 6), 0), ((2, 4), 1)]) 3 ↔
        coveredIn [((0, 6), 0), ((2, 4), 1)] 3) :=
  ⟨by decide, C6_coverage_amended [((0, 6), 0), ((2, 4), 1)] (by decide) 3⟩
